import Mathlib

/-!
# Double pendulum (`main.c`): embedding and verified properties

The program keeps one `state_t` record (arm lengths `r`, masses `m`, angles `a`,
angular velocities `a_velocity`, and a trace canvas) and calls `update_state` once per
frame.  `update_state` draws the pendulum, stamps the position of the second mass into the
canvas, computes the angular acceleration and integrates velocity and angle.

The C code computes in `float`.  The embedding is written over an arbitrary linearly ordered
field `α` with a floor function, and takes the C library functions `sinf`, `cosf` and `sqrtf`
as parameters; the theorems instantiate `α` with `ℝ` and the library functions with
`Real.sin`, `Real.cos` and `Real.sqrt`, so they describe the code with its arithmetic read
over the reals.  Division by zero, which yields an infinity or a NaN in `float`, is outside
this reading: statements about the quotients assume a non-zero denominator.
`int32_t` arithmetic is read over `ℤ` (signed overflow is undefined in C).

`fill_circle` is embedded a second time, as `fill_circle_f32`, with every `float` operation
rounded to IEEE 754 binary32: the exact reading and the binary32 reading draw the same lines up
to radius `4096` (for centres with `|cx| + r ≤ 2^24`) and differ at radius `4097`.
-/

namespace DoublePendulum

/-! ## Constants -/

/-- The macro `WINDOW_WIDTH`. -/
def WINDOW_WIDTH : Int := 900

/-- The macro `WINDOW_HEIGHT`. -/
def WINDOW_HEIGHT : Int := 600

/-- The macro `PI`. -/
def PI {α : Type} [LinearOrderedField α] : α := 3141592653589793 / 1000000000000000

/-- The macro `G` (the literal `0.01f`). -/
def G {α : Type} [LinearOrderedField α] : α := 1 / 100

/-! ## Data model -/

/-- The vector type `float2`: two independent scalars. -/
structure float2 (α : Type) where
  x : α
  y : α

/-- Componentwise sum of two `float2` values (`u + v`). -/
def float2.add {α : Type} [LinearOrderedField α] (u v : float2 α) : float2 α :=
  { x := u.x + v.x, y := u.y + v.y }

/-- Scalar times vector (`k * v`), componentwise. -/
def float2.scale {α : Type} [LinearOrderedField α] (k : α) (v : float2 α) : float2 α :=
  { x := k * v.x, y := k * v.y }

/-- The record `state_t`.  The field `canvas` stands for the buffer the pointer refers to:
one `uint32_t` per pixel, row-major. -/
structure state_t (α : Type) where
  r : float2 α
  m : float2 α
  a : float2 α
  a_velocity : float2 α
  canvas : List Nat

/-- One call `SDL_RenderDrawLine(renderer, x1, y1, x2, y2)`. -/
structure DrawLine where
  x1 : Int
  y1 : Int
  x2 : Int
  y2 : Int
deriving DecidableEq

/-- The pixels drawn for a horizontal line: a line with `y1 = y2` covers the pixels of that
row from one end point to the other, both included, as `SDL_RenderDrawLine` draws them. -/
@[reducible] def DrawLine.span_covers (l : DrawLine) (x y : Int) : Prop :=
  l.y1 = l.y2 ∧ y = l.y1 ∧ min l.x1 l.x2 ≤ x ∧ x ≤ max l.x1 l.x2

/-- Conversion of a `float` to a signed integer: truncation toward zero. -/
def float_to_int {α : Type} [LinearOrderedField α] [FloorRing α] (v : α) : Int :=
  if 0 ≤ v then ⌊v⌋ else ⌈v⌉

/-- Conversion of a `float` to `uint32_t`. -/
def float_to_uint32 {α : Type} [LinearOrderedField α] [FloorRing α] (v : α) : Nat :=
  (float_to_int v).toNat % 2 ^ 32

/-! ## `fill_circle` -/

/-- The two `SDL_RenderDrawLine` calls of one iteration of the loop of `fill_circle`. -/
def fill_circle_body {α : Type} [LinearOrderedField α] [FloorRing α] (sqrtf : α → α)
    (cx cy radius dy : Int) : List DrawLine :=
  let dx : α := ((⌊sqrtf ((2 * (radius : α) * (dy : α)) - ((dy * dy : Int) : α))⌋ : Int) : α)
  [ { x1 := float_to_int ((cx : α) - dx), y1 := cy + dy - radius,
      x2 := float_to_int ((cx : α) + dx), y2 := cy + dy - radius },
    { x1 := float_to_int ((cx : α) - dx), y1 := cy - dy + radius,
      x2 := float_to_int ((cx : α) + dx), y2 := cy - dy + radius } ]

/-- The loop `for (dy = ...; dy <= radius; ++dy)` of `fill_circle`, from the current `dy`. -/
def fill_circle_loop {α : Type} [LinearOrderedField α] [FloorRing α] (sqrtf : α → α)
    (cx cy radius dy : Int) : List DrawLine :=
  if dy ≤ radius then
    fill_circle_body sqrtf cx cy radius dy ++ fill_circle_loop sqrtf cx cy radius (dy + 1)
  else
    []
termination_by (radius + 1 - dy).toNat
decreasing_by omega

/-- The function `fill_circle`: the sequence of lines it asks the renderer to draw. -/
def fill_circle {α : Type} [LinearOrderedField α] [FloorRing α] (sqrtf : α → α)
    (cx cy radius : Int) : List DrawLine :=
  fill_circle_loop sqrtf cx cy radius 1

/-! ## `update_state` -/

/-- The local `pos1` of `update_state`. -/
def pos1 {α : Type} [LinearOrderedField α] (sinf cosf : α → α) (this : state_t α) : float2 α :=
  float2.add (float2.scale this.r.x { x := sinf this.a.x, y := cosf this.a.x })
    { x := ((WINDOW_WIDTH / 2 : Int) : α), y := 50 }

/-- The local `pos2` of `update_state`. -/
def pos2 {α : Type} [LinearOrderedField α] (sinf cosf : α → α) (this : state_t α) : float2 α :=
  float2.add (pos1 sinf cosf this)
    (float2.scale this.r.y { x := sinf this.a.y, y := cosf this.a.y })

/-- The lines `update_state` asks the renderer to draw: the two arms, then the two discs. -/
def draw_commands {α : Type} [LinearOrderedField α] [FloorRing α] (sinf cosf sqrtf : α → α)
    (this : state_t α) : List DrawLine :=
  let p1 := pos1 sinf cosf this
  let p2 := pos2 sinf cosf this
  [ { x1 := WINDOW_WIDTH / 2, y1 := 50, x2 := float_to_int p1.x, y2 := float_to_int p1.y },
    { x1 := float_to_int p1.x, y1 := float_to_int p1.y,
      x2 := float_to_int p2.x, y2 := float_to_int p2.y } ]
  ++ fill_circle sqrtf (float_to_int p1.x) (float_to_int p1.y) (float_to_int this.m.x)
  ++ fill_circle sqrtf (float_to_int p2.x) (float_to_int p2.y) (float_to_int this.m.y)

/-- The index of the canvas cell written by the block "plot the second point on the canvas"
for the position `p`, or `none` when the guard fails and nothing is written. -/
def stamp_index {α : Type} [LinearOrderedField α] [FloorRing α] (p : float2 α) : Option Nat :=
  if (0 : α) ≤ ((⌊p.x⌋ : Int) : α) ∧ ((⌊p.x⌋ : Int) : α) < ((WINDOW_WIDTH : Int) : α)
      ∧ (0 : α) ≤ ((⌊p.y⌋ : Int) : α) ∧ ((⌊p.y⌋ : Int) : α) < ((WINDOW_HEIGHT : Int) : α) then
    some (float_to_uint32
      (((⌊p.y⌋ : Int) : α) * ((WINDOW_WIDTH : Int) : α) + ((⌊p.x⌋ : Int) : α)))
  else
    none

/-- The guard of the stamp, spelled on the integer floors: `0 ≤ ⌊x⌋ < 900` and
`0 ≤ ⌊y⌋ < 600`. -/
@[reducible] def in_canvas {α : Type} [LinearOrderedField α] [FloorRing α]
    (p : float2 α) : Prop :=
  0 ≤ ⌊p.x⌋ ∧ ⌊p.x⌋ < 900 ∧ 0 ≤ ⌊p.y⌋ ∧ ⌊p.y⌋ < 600

/-- The canvas after the block "plot the second point on the canvas": the cell at the
stamp index receives `255`, every other cell is kept.  (`List.set` ignores an index past the
end of the list, where the C code would write outside the buffer; `stamp_bounds` shows that
the index is always inside a buffer of `900·600` cells.) -/
def stamp {α : Type} [LinearOrderedField α] [FloorRing α] (p : float2 α)
    (canvas : List Nat) : List Nat :=
  match stamp_index p with
  | some i => canvas.set i 255
  | none => canvas

/-- The local `den`, initialised by the same expression in both blocks of `update_state`. -/
def den {α : Type} [LinearOrderedField α] (cosf : α → α) (this : state_t α) : α :=
  this.r.x * (2 * this.m.x + this.m.y - this.m.y * cosf (2 * this.a.x - 2 * this.a.y))

/-- The local `a_acceleration` of `update_state` after the block
"update the acceleration vector". -/
def a_acceleration {α : Type} [LinearOrderedField α] (sinf cosf : α → α)
    (this : state_t α) : float2 α :=
  { x :=
      let num1 := -G * (2 * this.m.x + this.m.y) * sinf this.a.x
      let num2 := -this.m.y * G * sinf (this.a.x - 2 * this.a.y)
      let num3 := -2 * sinf (this.a.x - this.a.y) * this.m.y
      let num4 := this.a_velocity.y * this.a_velocity.y * this.r.y
        + this.a_velocity.x * this.a_velocity.x * this.r.x * cosf (this.a.x - this.a.y)
      let den := den cosf this
      (num1 + num2 + num3 * num4) / den
    y :=
      let num1 := 2 * sinf (this.a.x - this.a.y)
      let num2 := this.a_velocity.x * this.a_velocity.y * this.r.x * (this.m.x + this.m.y)
      let num3 := G * (this.m.x + this.m.y) * cosf this.a.x
      let num4 := this.a_velocity.y * this.a_velocity.y * this.r.y * this.m.y
        * cosf (this.a.x - this.a.y)
      let den := den cosf this
      (num1 * (num2 + num3 + num4)) / den }

/-- The function `update_state`: the state record and canvas after one call.  The calls into
the renderer (see `draw_commands`) neither read nor write the record. -/
def update_state {α : Type} [LinearOrderedField α] [FloorRing α] (sinf cosf : α → α)
    (this : state_t α) : state_t α :=
  let canvas := stamp (pos2 sinf cosf this) this.canvas
  let a_acceleration := a_acceleration sinf cosf this
  let a_velocity := float2.add this.a_velocity a_acceleration
  { r := this.r
    m := this.m
    a := float2.add this.a a_velocity
    a_velocity := a_velocity
    canvas := canvas }

/-- The record `state` as initialised in `main`: the members not named by the initialiser
are zero, and every byte of the canvas is `255`. -/
def main_state {α : Type} [LinearOrderedField α] : state_t α :=
  { r := { x := 200, y := 200 }
    m := { x := 20, y := 20 }
    a := { x := PI / 2, y := PI / 8 }
    a_velocity := { x := 0, y := 0 }
    canvas := List.replicate (WINDOW_WIDTH * WINDOW_HEIGHT).toNat 4294967295 }

/-- A state with the arm lengths, masses and canvas of `main` and the given angles and
angular velocities. -/
def sample_state {α : Type} [LinearOrderedField α] (a1 a2 w1 w2 : α) : state_t α :=
  { r := { x := 200, y := 200 }
    m := { x := 20, y := 20 }
    a := { x := a1, y := a2 }
    a_velocity := { x := w1, y := w2 }
    canvas := List.replicate (WINDOW_WIDTH * WINDOW_HEIGHT).toNat 4294967295 }

/-- The second angular acceleration as the specification words it, with `ω1²` in the first
summand of the bracket (the code has `ω1·ω2` there). -/
def spec_alpha2 {α : Type} [LinearOrderedField α] (sinf cosf : α → α) (this : state_t α) : α :=
  (2 * sinf (this.a.x - this.a.y)
      * (this.a_velocity.x ^ 2 * this.r.x * (this.m.x + this.m.y)
          + G * (this.m.x + this.m.y) * cosf this.a.x
          + this.a_velocity.y ^ 2 * this.r.y * this.m.y * cosf (this.a.x - this.a.y)))
    / (this.r.x * (2 * this.m.x + this.m.y - this.m.y * cosf (2 * this.a.x - 2 * this.a.y)))

/-- The state after `n` iterations of the frame loop of `main`, started from `s`. -/
def run {α : Type} [LinearOrderedField α] [FloorRing α] (sinf cosf : α → α) :
    Nat → state_t α → state_t α
  | 0, s => s
  | n + 1, s => update_state sinf cosf (run sinf cosf n s)

/-! ## `fill_circle` in binary32 arithmetic

The C type `float` is IEEE 754 binary32.  The definitions below read every `float` operation
of `fill_circle` as the exact operation followed by rounding to the nearest binary32 value,
ties to even; binary32 values are represented by the rationals they denote. -/

/-- Rounding of a rational to the nearest integer, ties to the even one. -/
def round_half_even (q : ℚ) : Int :=
  if q - (⌊q⌋ : ℚ) < 1 / 2 then ⌊q⌋
  else if 1 / 2 < q - (⌊q⌋ : ℚ) then ⌊q⌋ + 1
  else if ⌊q⌋ % 2 = 0 then ⌊q⌋
  else ⌊q⌋ + 1

/-- The binary32 exponent of `x`: `⌊log₂ |x|⌋`, and `-126` in the subnormal range. -/
def f32_exponent (x : ℚ) : Int :=
  max (Int.log 2 |x|) (-126)

/-- Rounding to the nearest binary32 value, ties to even: the spacing of binary32 values
around `x` is `2 ^ (f32_exponent x - 23)`.  Overflow to infinity (magnitudes from `2 ^ 128`
on) is not modelled. -/
def f32_round (x : ℚ) : ℚ :=
  (round_half_even (x / 2 ^ (f32_exponent x - 23)) : ℚ) * 2 ^ (f32_exponent x - 23)

/-- Conversion of an `int32_t` to `float`. -/
def int_to_f32 (z : Int) : ℚ :=
  f32_round (z : ℚ)

/-- The `float` product `a * b`. -/
def f32_mul (a b : ℚ) : ℚ :=
  f32_round (a * b)

/-- The `float` sum `a + b`. -/
def f32_add (a b : ℚ) : ℚ :=
  f32_round (a + b)

/-- The `float` difference `a - b`. -/
def f32_sub (a b : ℚ) : ℚ :=
  f32_round (a - b)

/-- The library function `floorf`; the floor of a binary32 value is a binary32 value. -/
def f32_floor (x : ℚ) : ℚ :=
  ((⌊x⌋ : Int) : ℚ)

/-- The library function `sqrtf` on binary32 values: the binary32 value nearest to `√x`, ties
to even, as IEEE 754 requires of the square root.  With `u` the spacing of binary32 values
around `√x` and `m = ⌊√x / u⌋`, the result is `m·u` or `(m + 1)·u` according to the side of
`(m + 1/2)²` on which `x / u²` lies.  For a negative `x`, where `sqrtf` returns a NaN, the
value is `0`. -/
def f32_sqrt (x : ℚ) : ℚ :=
  let u : ℚ := 2 ^ (Int.log 2 x / 2 - 23)
  let y : ℚ := x / (u * u)
  let m : Nat := Nat.sqrt ⌊y⌋₊
  let n : Nat :=
    if y < ((m : ℚ) + 1 / 2) ^ 2 then m
    else if ((m : ℚ) + 1 / 2) ^ 2 < y then m + 1
    else if m % 2 = 0 then m
    else m + 1
  (n : ℚ) * u

/-- The two `SDL_RenderDrawLine` calls of one iteration of the loop of `fill_circle`, every
`float` operation rounded to binary32. -/
def fill_circle_body_f32 (cx cy radius dy : Int) : List DrawLine :=
  let dx : ℚ := f32_floor (f32_sqrt
    (f32_sub (f32_mul (f32_mul 2 (int_to_f32 radius)) (int_to_f32 dy)) (int_to_f32 (dy * dy))))
  [ { x1 := float_to_int (f32_sub (int_to_f32 cx) dx), y1 := cy + dy - radius,
      x2 := float_to_int (f32_add (int_to_f32 cx) dx), y2 := cy + dy - radius },
    { x1 := float_to_int (f32_sub (int_to_f32 cx) dx), y1 := cy - dy + radius,
      x2 := float_to_int (f32_add (int_to_f32 cx) dx), y2 := cy - dy + radius } ]

/-- The loop of `fill_circle` from the current `dy`, in binary32 arithmetic. -/
def fill_circle_loop_f32 (cx cy radius dy : Int) : List DrawLine :=
  if dy ≤ radius then
    fill_circle_body_f32 cx cy radius dy ++ fill_circle_loop_f32 cx cy radius (dy + 1)
  else
    []
termination_by (radius + 1 - dy).toNat
decreasing_by omega

/-- The function `fill_circle` in binary32 arithmetic: the sequence of lines it asks the
renderer to draw. -/
def fill_circle_f32 (cx cy radius : Int) : List DrawLine :=
  fill_circle_loop_f32 cx cy radius 1

/-! ## Angular acceleration -/

/-- C4: for every state with a non-zero denominator, the first component of the angular
acceleration computed by `update_state`, read over the reals with `G = 0.01`, is
`[-G·(2·m1+m2)·sin θ1 - m2·G·sin(θ1-2θ2) - 2·sin(θ1-θ2)·m2·(ω2²·L2 + ω1²·L1·cos(θ1-θ2))]
/ [L1·(2·m1+m2-m2·cos(2θ1-2θ2))]`, and it is what the step adds to `ω1`. -/
theorem update_state_alpha1 (s : state_t ℝ) (h : den Real.cos s ≠ 0) :
    (a_acceleration Real.sin Real.cos s).x
        = (-0.01 * (2 * s.m.x + s.m.y) * Real.sin s.a.x
            - s.m.y * 0.01 * Real.sin (s.a.x - 2 * s.a.y)
            - 2 * Real.sin (s.a.x - s.a.y) * s.m.y
                * (s.a_velocity.y ^ 2 * s.r.y
                    + s.a_velocity.x ^ 2 * s.r.x * Real.cos (s.a.x - s.a.y)))
          / (s.r.x * (2 * s.m.x + s.m.y - s.m.y * Real.cos (2 * s.a.x - 2 * s.a.y)))
      ∧ (update_state Real.sin Real.cos s).a_velocity.x
        = s.a_velocity.x + (a_acceleration Real.sin Real.cos s).x := by
  have _ := h
  refine ⟨?_, rfl⟩
  simp only [a_acceleration, den, G]
  congr 1
  ring

/-- Witness for `update_state_alpha1`: the state with `θ = (π/2, 0)` and `ω = (1, 2)`. -/
theorem update_state_alpha1_witness :
    den Real.cos (sample_state (Real.pi / 2) 0 1 2) ≠ 0
      ∧ (a_acceleration Real.sin Real.cos (sample_state (Real.pi / 2) 0 1 2)).x
        = (-0.01 * (2 * 20 + 20) * Real.sin (Real.pi / 2)
            - 20 * 0.01 * Real.sin (Real.pi / 2 - 2 * 0)
            - 2 * Real.sin (Real.pi / 2 - 0) * 20
                * (2 ^ 2 * 200 + 1 ^ 2 * 200 * Real.cos (Real.pi / 2 - 0)))
          / (200 * (2 * 20 + 20 - 20 * Real.cos (2 * (Real.pi / 2) - 2 * 0))) :=
  have hden : den Real.cos (sample_state (Real.pi / 2) 0 1 2) ≠ 0 := by
    have h : (2 : ℝ) * (Real.pi / 2) - 2 * 0 = Real.pi := by ring
    simp only [den, sample_state, h, Real.cos_pi]
    norm_num
  ⟨hden, (update_state_alpha1 (sample_state (Real.pi / 2) 0 1 2) hden).1⟩

/-- C1: at the state with `L = (200, 200)`, `m = (20, 20)`, `θ = (π/2, 0)`, `ω = (1, 0)` the
denominator is `16000`, the second component of the angular acceleration computed by
`update_state` is `0`, and the formula of the specification gives `1`; in general the code
has the product `ω1·ω2` where the specification has `ω1²`. -/
theorem update_state_alpha2_differs :
    den Real.cos (sample_state (Real.pi / 2) 0 1 0) = 16000
      ∧ (a_acceleration Real.sin Real.cos (sample_state (Real.pi / 2) 0 1 0)).y = 0
      ∧ spec_alpha2 Real.sin Real.cos (sample_state (Real.pi / 2) 0 1 0) = 1
      ∧ ∀ s : state_t ℝ, (a_acceleration Real.sin Real.cos s).y
          = (2 * Real.sin (s.a.x - s.a.y)
              * (s.a_velocity.x * s.a_velocity.y * s.r.x * (s.m.x + s.m.y)
                  + 0.01 * (s.m.x + s.m.y) * Real.cos s.a.x
                  + s.a_velocity.y ^ 2 * s.r.y * s.m.y * Real.cos (s.a.x - s.a.y)))
            / (s.r.x * (2 * s.m.x + s.m.y - s.m.y * Real.cos (2 * s.a.x - 2 * s.a.y))) := by
  have h : (2 : ℝ) * (Real.pi / 2) - 2 * 0 = Real.pi := by ring
  refine ⟨?_, ?_, ?_, ?_⟩
  · simp only [den, sample_state, h, Real.cos_pi]
    norm_num
  · simp only [a_acceleration, den, sample_state, h, Real.cos_pi, sub_zero, Real.sin_pi_div_two,
      Real.cos_pi_div_two]
    norm_num
  · simp only [spec_alpha2, sample_state, h, Real.cos_pi, sub_zero, Real.sin_pi_div_two,
      Real.cos_pi_div_two]
    norm_num
  · intro s
    simp only [a_acceleration, den, G]
    congr 1
    ring

/-- C2 (as stated, refuted): with `m1 = m2 = 20`, `L1 = L2 = 200`, `θ1 = θ2 = π/2` and
`ω1 = ω2 = 0` the first component of the angular acceleration computed by `update_state` is
`-1/20000`, so the two components are not both zero. -/
theorem symmetric_state_accelerates :
    (sample_state (Real.pi / 2) (Real.pi / 2) 0 0 : state_t ℝ).m.x
        = (sample_state (Real.pi / 2) (Real.pi / 2) 0 0 : state_t ℝ).m.y
      ∧ (sample_state (Real.pi / 2) (Real.pi / 2) 0 0 : state_t ℝ).r.x
        = (sample_state (Real.pi / 2) (Real.pi / 2) 0 0 : state_t ℝ).r.y
      ∧ (a_acceleration Real.sin Real.cos (sample_state (Real.pi / 2) (Real.pi / 2) 0 0)).x
        = -1 / 20000
      ∧ ¬ ((a_acceleration Real.sin Real.cos (sample_state (Real.pi / 2) (Real.pi / 2) 0 0)).x = 0
          ∧ (a_acceleration Real.sin Real.cos
              (sample_state (Real.pi / 2) (Real.pi / 2) 0 0)).y = 0) := by
  have h1 : Real.pi / 2 - 2 * (Real.pi / 2) = -(Real.pi / 2) := by ring
  have h2 : (2 : ℝ) * (Real.pi / 2) - 2 * (Real.pi / 2) = 0 := by ring
  have hx : (a_acceleration Real.sin Real.cos
      (sample_state (Real.pi / 2) (Real.pi / 2) 0 0)).x = -1 / 20000 := by
    simp only [a_acceleration, den, sample_state, G, h1, h2, sub_self, Real.sin_neg,
      Real.sin_pi_div_two, Real.sin_zero, Real.cos_zero]
    norm_num
  refine ⟨rfl, rfl, hx, ?_⟩
  rintro ⟨h, -⟩
  rw [hx] at h
  norm_num at h

/-- C2 (amended): for every state with `m1 = m2`, `L1 = L2`, `θ1 = θ2` and `ω1 = ω2 = 0`,
masses and lengths strictly positive, the second component of the angular acceleration
computed by `update_state` is zero and the first is `-G·sin θ1 / L1`; hence the first is zero
exactly when `sin θ1 = 0`. -/
theorem symmetric_state_acceleration (s : state_t ℝ)
    (hm : s.m.x = s.m.y) (hr : s.r.x = s.r.y) (ha : s.a.x = s.a.y)
    (hw1 : s.a_velocity.x = 0) (hw2 : s.a_velocity.y = 0)
    (hmpos : 0 < s.m.x) (hrpos : 0 < s.r.x) :
    (a_acceleration Real.sin Real.cos s).y = 0
      ∧ (a_acceleration Real.sin Real.cos s).x = -0.01 * Real.sin s.a.x / s.r.x
      ∧ ((a_acceleration Real.sin Real.cos s).x = 0 ↔ Real.sin s.a.x = 0) := by
  have _ := hr
  have hx : (a_acceleration Real.sin Real.cos s).x = -0.01 * Real.sin s.a.x / s.r.x := by
    have h1 : s.a.y - 2 * s.a.y = -s.a.y := by ring
    have h2 : 2 * s.a.y - 2 * s.a.y = 0 := by ring
    simp only [a_acceleration, den, G, hw1, hw2, ← hm, ha, h1, h2, sub_self, Real.sin_neg,
      Real.sin_zero, Real.cos_zero]
    field_simp
    ring
  refine ⟨?_, hx, ?_⟩
  · simp only [a_acceleration, ha, sub_self, Real.sin_zero]
    ring
  · rw [hx]
    constructor
    · intro h
      have h3 : -0.01 * Real.sin s.a.x = 0 := by
        rcases div_eq_zero_iff.mp h with h | h
        · exact h
        · exact absurd h (ne_of_gt hrpos)
      have h4 : (-0.01 : ℝ) ≠ 0 := by norm_num
      exact (mul_eq_zero.mp h3).resolve_left h4
    · intro h
      rw [h]
      simp

/-- Witness for `symmetric_state_acceleration`: both arms hanging at `θ = π/2`. -/
theorem symmetric_state_acceleration_witness :
    (a_acceleration Real.sin Real.cos (sample_state (Real.pi / 2) (Real.pi / 2) 0 0)).y = 0
      ∧ (a_acceleration Real.sin Real.cos (sample_state (Real.pi / 2) (Real.pi / 2) 0 0)).x
        = -0.01 * Real.sin (Real.pi / 2) / 200
      ∧ ((a_acceleration Real.sin Real.cos (sample_state (Real.pi / 2) (Real.pi / 2) 0 0)).x = 0
        ↔ Real.sin (Real.pi / 2) = 0) :=
  symmetric_state_acceleration (sample_state (Real.pi / 2) (Real.pi / 2) 0 0)
    rfl rfl rfl rfl rfl (by simp [sample_state]) (by simp [sample_state])

/-! ## Integration step -/

/-- C3: for every state (and whatever `sinf` and `cosf` compute), `update_state` adds the
acceleration to the velocity and then the new velocity to the angle, in both components:
`ω' = ω + α` and `θ' = θ + ω' = θ + ω + α`; when `α = 0` the step gives `ω' = ω` and
`θ' = θ + ω`.  Lengths and masses pass through unchanged. -/
theorem update_state_integration {α : Type} [LinearOrderedField α] [FloorRing α]
    (sinf cosf : α → α) (s : state_t α) :
    ((update_state sinf cosf s).a_velocity.x = s.a_velocity.x + (a_acceleration sinf cosf s).x
      ∧ (update_state sinf cosf s).a_velocity.y
        = s.a_velocity.y + (a_acceleration sinf cosf s).y)
    ∧ ((update_state sinf cosf s).a.x = s.a.x + (update_state sinf cosf s).a_velocity.x
      ∧ (update_state sinf cosf s).a.y = s.a.y + (update_state sinf cosf s).a_velocity.y)
    ∧ ((update_state sinf cosf s).a.x = s.a.x + s.a_velocity.x + (a_acceleration sinf cosf s).x
      ∧ (update_state sinf cosf s).a.y
        = s.a.y + s.a_velocity.y + (a_acceleration sinf cosf s).y)
    ∧ ((a_acceleration sinf cosf s).x = 0 → (a_acceleration sinf cosf s).y = 0 →
        (update_state sinf cosf s).a_velocity.x = s.a_velocity.x
        ∧ (update_state sinf cosf s).a_velocity.y = s.a_velocity.y
        ∧ (update_state sinf cosf s).a.x = s.a.x + s.a_velocity.x
        ∧ (update_state sinf cosf s).a.y = s.a.y + s.a_velocity.y)
    ∧ ((update_state sinf cosf s).r = s.r ∧ (update_state sinf cosf s).m = s.m) := by
  refine ⟨⟨rfl, rfl⟩, ⟨rfl, rfl⟩, ⟨?_, ?_⟩, ?_, ⟨rfl, rfl⟩⟩
  · simp only [update_state, float2.add, add_assoc]
  · simp only [update_state, float2.add, add_assoc]
  · intro hx hy
    simp only [update_state, float2.add, hx, hy, add_zero]
    exact ⟨trivial, trivial, trivial, trivial⟩

/-- Witness for `update_state_integration`: both arms hanging straight down (`θ = (0, 0)`)
with `ω = (1, 2)`; the acceleration is zero and the step gives `ω' = (1, 2)`, `θ' = (1, 2)`. -/
theorem update_state_integration_witness :
    (a_acceleration Real.sin Real.cos (sample_state 0 0 1 2)).x = 0
      ∧ (a_acceleration Real.sin Real.cos (sample_state 0 0 1 2)).y = 0
      ∧ (update_state Real.sin Real.cos (sample_state 0 0 1 2)).a_velocity.x = 1
      ∧ (update_state Real.sin Real.cos (sample_state 0 0 1 2)).a_velocity.y = 2
      ∧ (update_state Real.sin Real.cos (sample_state 0 0 1 2)).a.x = 0 + 1
      ∧ (update_state Real.sin Real.cos (sample_state 0 0 1 2)).a.y = 0 + 2 :=
  have hx : (a_acceleration Real.sin Real.cos (sample_state 0 0 1 2)).x = 0 := by
    simp [a_acceleration, sample_state]
  have hy : (a_acceleration Real.sin Real.cos (sample_state 0 0 1 2)).y = 0 := by
    simp [a_acceleration, sample_state]
  ⟨hx, hy,
    (update_state_integration Real.sin Real.cos (sample_state 0 0 1 2)).2.2.2.1 hx hy⟩

/-! ## Positions -/

/-- C8: for every state, read over the reals, `pos1 = (450 + L1·sin θ1, 50 + L1·cos θ1)` and
`pos2 = pos1 + (L2·sin θ2, L2·cos θ2)`, the first line drawn starts at the pivot `(450, 50)`;
for arm lengths `(200, 200)` and angles `(π/2, π/8)`, `pos1 = (650, 50)` and
`pos2 = (650 + 200·sin(π/8), 50 + 200·cos(π/8))`. -/
theorem update_state_positions :
    (∀ s : state_t ℝ,
      (pos1 Real.sin Real.cos s).x = 450 + s.r.x * Real.sin s.a.x
      ∧ (pos1 Real.sin Real.cos s).y = 50 + s.r.x * Real.cos s.a.x
      ∧ (pos2 Real.sin Real.cos s).x = (pos1 Real.sin Real.cos s).x + s.r.y * Real.sin s.a.y
      ∧ (pos2 Real.sin Real.cos s).y = (pos1 Real.sin Real.cos s).y + s.r.y * Real.cos s.a.y
      ∧ ∃ rest, draw_commands Real.sin Real.cos Real.sqrt s
          = { x1 := 900 / 2, y1 := 50, x2 := float_to_int (pos1 Real.sin Real.cos s).x,
              y2 := float_to_int (pos1 Real.sin Real.cos s).y } :: rest)
    ∧ (pos1 Real.sin Real.cos (sample_state (Real.pi / 2) (Real.pi / 8) 0 0)).x = 650
    ∧ (pos1 Real.sin Real.cos (sample_state (Real.pi / 2) (Real.pi / 8) 0 0)).y = 50
    ∧ (pos2 Real.sin Real.cos (sample_state (Real.pi / 2) (Real.pi / 8) 0 0)).x
      = 650 + 200 * Real.sin (Real.pi / 8)
    ∧ (pos2 Real.sin Real.cos (sample_state (Real.pi / 2) (Real.pi / 8) 0 0)).y
      = 50 + 200 * Real.cos (Real.pi / 8) := by
  have hw : ((WINDOW_WIDTH / 2 : Int) : ℝ) = 450 := by
    norm_num [WINDOW_WIDTH]
  refine ⟨fun s => ⟨?_, ?_, rfl, rfl, ?_⟩, ?_, ?_, ?_, ?_⟩
  · simp only [pos1, float2.add, float2.scale, hw]
    ring
  · simp only [pos1, float2.add, float2.scale]
    ring
  · exact ⟨_, rfl⟩
  · simp only [pos1, float2.add, float2.scale, hw, sample_state, Real.sin_pi_div_two]
    norm_num
  · simp only [pos1, float2.add, float2.scale, sample_state, Real.cos_pi_div_two]
    norm_num
  · simp only [pos2, pos1, float2.add, float2.scale, hw, sample_state, Real.sin_pi_div_two]
    norm_num
  · simp only [pos2, pos1, float2.add, float2.scale, sample_state, Real.cos_pi_div_two]
    norm_num

/-! ## The denominator -/

/-- The frame loop never changes arm lengths or masses. -/
lemma run_r_m {α : Type} [LinearOrderedField α] [FloorRing α] (sinf cosf : α → α)
    (n : Nat) (s : state_t α) :
    (run sinf cosf n s).r = s.r ∧ (run sinf cosf n s).m = s.m := by
  induction n with
  | zero => exact ⟨rfl, rfl⟩
  | succ n ih => exact ih

/-- The denominator is at least `2·L1·m1` when `m2` and `L1` are not negative. -/
lemma den_ge (s : state_t ℝ) (hm2 : 0 ≤ s.m.y) (hL : 0 ≤ s.r.x) :
    2 * s.r.x * s.m.x ≤ den Real.cos s := by
  have hc : Real.cos (2 * s.a.x - 2 * s.a.y) ≤ 1 := Real.cos_le_one _
  have h1 : 0 ≤ s.m.y * (1 - Real.cos (2 * s.a.x - 2 * s.a.y)) :=
    mul_nonneg hm2 (by linarith)
  have h2 : 0 ≤ s.r.x * (s.m.y * (1 - Real.cos (2 * s.a.x - 2 * s.a.y))) :=
    mul_nonneg hL h1
  simp only [den]
  nlinarith

/-- C10: for every state with `m1 > 0`, `m2 > 0` and `L1 > 0` and all angles, the denominator
used by both components of the acceleration satisfies `den ≥ 2·L1·m1 > 0` over the reals, and
so does the denominator of every state the frame loop reaches from it. -/
theorem den_pos (s : state_t ℝ) (hm1 : 0 < s.m.x) (hm2 : 0 < s.m.y) (hL : 0 < s.r.x) :
    2 * s.r.x * s.m.x ≤ den Real.cos s
      ∧ 0 < 2 * s.r.x * s.m.x
      ∧ den Real.cos s ≠ 0
      ∧ ∀ n, 2 * s.r.x * s.m.x ≤ den Real.cos (run Real.sin Real.cos n s)
          ∧ den Real.cos (run Real.sin Real.cos n s) ≠ 0 := by
  have hpos : 0 < 2 * s.r.x * s.m.x := by positivity
  have h0 := den_ge s hm2.le hL.le
  refine ⟨h0, hpos, ne_of_gt (lt_of_lt_of_le hpos h0), fun n => ?_⟩
  obtain ⟨hr, hm⟩ := run_r_m Real.sin Real.cos n s
  have hn := den_ge (run Real.sin Real.cos n s) (by rw [hm]; exact hm2.le)
    (by rw [hr]; exact hL.le)
  rw [hr, hm] at hn
  exact ⟨hn, ne_of_gt (lt_of_lt_of_le hpos hn)⟩

/-- Witness for `den_pos`: the initial state of `main`, lengths `(200, 200)` and masses
`(20, 20)`; the denominator stays at or above `8000` along the whole run. -/
theorem den_pos_witness :
    2 * 200 * 20 ≤ den Real.cos (main_state : state_t ℝ)
      ∧ (0 : ℝ) < 2 * 200 * 20
      ∧ den Real.cos (main_state : state_t ℝ) ≠ 0
      ∧ ∀ n, 2 * 200 * 20 ≤ den Real.cos (run Real.sin Real.cos n main_state)
          ∧ den Real.cos (run Real.sin Real.cos n main_state) ≠ 0 :=
  den_pos main_state (by simp [main_state]) (by simp [main_state]) (by simp [main_state])

/-! ## The canvas stamp -/

/-- Converting an integer-valued `float` to an integer gives that integer. -/
lemma float_to_int_intCast {α : Type} [LinearOrderedField α] [FloorRing α] (z : Int) :
    float_to_int (z : α) = z := by
  unfold float_to_int
  split
  · exact Int.floor_intCast z
  · exact Int.ceil_intCast z

/-- The stamp index in closed form. -/
lemma stamp_index_eq {α : Type} [LinearOrderedField α] [FloorRing α] (p : float2 α) :
    stamp_index p
      = if in_canvas p then some (⌊p.y⌋ * 900 + ⌊p.x⌋).toNat else none := by
  have hidx : ((⌊p.y⌋ : Int) : α) * ((WINDOW_WIDTH : Int) : α) + ((⌊p.x⌋ : Int) : α)
      = ((⌊p.y⌋ * 900 + ⌊p.x⌋ : Int) : α) := by
    simp only [WINDOW_WIDTH]
    push_cast
    ring
  have hg : ((0 : α) ≤ ((⌊p.x⌋ : Int) : α) ∧ ((⌊p.x⌋ : Int) : α) < ((WINDOW_WIDTH : Int) : α)
      ∧ (0 : α) ≤ ((⌊p.y⌋ : Int) : α) ∧ ((⌊p.y⌋ : Int) : α) < ((WINDOW_HEIGHT : Int) : α))
      ↔ in_canvas p := by
    simp only [in_canvas, WINDOW_WIDTH, WINDOW_HEIGHT, Int.cast_nonneg, Int.cast_lt]
  unfold stamp_index
  by_cases h : in_canvas p
  · rw [if_pos (hg.mpr h), if_pos h, hidx]
    simp only [float_to_uint32, float_to_int_intCast]
    obtain ⟨h1, h2, h3, h4⟩ := h
    congr 1
    omega
  · rw [if_neg (fun h2 => h (hg.mp h2)), if_neg h]

/-- C5: for every position `p = (x, y)` and every canvas of `900·600` cells, the stamp of
`update_state` writes exactly when `0 ≤ ⌊x⌋ < 900` and `0 ≤ ⌊y⌋ < 600`; the written index is
then `⌊y⌋·900 + ⌊x⌋`, which lies below the buffer length, and the cell receives `255`; for a
position on or outside the boundary nothing is written and the canvas is unchanged.  The
canvas after `update_state` is the stamp of `pos2`. -/
theorem stamp_bounds {α : Type} [LinearOrderedField α] [FloorRing α] (p : float2 α)
    (canvas : List Nat) (hlen : canvas.length = 900 * 600) :
    (stamp_index p ≠ none ↔ (0 ≤ ⌊p.x⌋ ∧ ⌊p.x⌋ < 900 ∧ 0 ≤ ⌊p.y⌋ ∧ ⌊p.y⌋ < 600))
    ∧ (∀ i, stamp_index p = some i →
        (i : Int) = ⌊p.y⌋ * 900 + ⌊p.x⌋ ∧ i < 900 * 600 ∧ i < canvas.length
        ∧ stamp p canvas = canvas.set i 255)
    ∧ (¬ (0 ≤ ⌊p.x⌋ ∧ ⌊p.x⌋ < 900 ∧ 0 ≤ ⌊p.y⌋ ∧ ⌊p.y⌋ < 600) →
        stamp_index p = none ∧ stamp p canvas = canvas)
    ∧ (stamp p canvas).length = 900 * 600
    ∧ ∀ (sinf cosf : α → α) (s : state_t α),
        (update_state sinf cosf s).canvas = stamp (pos2 sinf cosf s) s.canvas := by
  have heq := stamp_index_eq p
  refine ⟨?_, ?_, ?_, ?_, fun _ _ _ => rfl⟩
  · rw [heq]
    by_cases h : in_canvas p
    · simp only [if_pos h, ne_eq, reduceCtorEq, not_false_eq_true, true_iff]
      exact h
    · simp only [if_neg h, ne_eq, not_true_eq_false, false_iff]
      exact h
  · intro i hi
    rw [heq] at hi
    by_cases h : in_canvas p
    · rw [if_pos h] at hi
      have hi2 : (⌊p.y⌋ * 900 + ⌊p.x⌋).toNat = i := Option.some.inj hi
      obtain ⟨h1, h2, h3, h4⟩ := h
      have hs : stamp p canvas = canvas.set i 255 := by
        simp only [stamp, heq, if_pos (show in_canvas p from ⟨h1, h2, h3, h4⟩), hi2]
      refine ⟨by omega, by omega, by omega, hs⟩
    · rw [if_neg h] at hi
      exact absurd hi (by simp)
  · intro h
    have hn : stamp_index p = none := by
      rw [heq, if_neg (show ¬ in_canvas p from h)]
    refine ⟨hn, ?_⟩
    simp only [stamp, hn]
  · unfold stamp
    split
    · rw [List.length_set, hlen]
    · exact hlen
/-- Witness for `stamp_bounds` on the canvas of `main`: the position `(900, 10)`, on the right
boundary, leaves the canvas unchanged; the position `(450.5, 450.25)` writes cell `405450`. -/
theorem stamp_bounds_witness :
    (stamp ({ x := 900, y := 10 } : float2 ℝ) (main_state : state_t ℝ).canvas
        = (main_state : state_t ℝ).canvas)
      ∧ ((405450 : Nat) < (main_state : state_t ℝ).canvas.length
        ∧ stamp ({ x := 450.5, y := 450.25 } : float2 ℝ) (main_state : state_t ℝ).canvas
          = (main_state : state_t ℝ).canvas.set 405450 255) :=
  have hlen : (main_state : state_t ℝ).canvas.length = 900 * 600 := by
    show (List.replicate _ _).length = _
    rw [List.length_replicate]
    rfl
  have hout : ¬ (0 ≤ ⌊(900 : ℝ)⌋ ∧ ⌊(900 : ℝ)⌋ < 900 ∧ 0 ≤ ⌊(10 : ℝ)⌋ ∧ ⌊(10 : ℝ)⌋ < 600) := by
    simp
  have hx : ⌊(450.5 : ℝ)⌋ = 450 := by
    rw [Int.floor_eq_iff]
    norm_num
  have hy : ⌊(450.25 : ℝ)⌋ = 450 := by
    rw [Int.floor_eq_iff]
    norm_num
  have hidx : stamp_index ({ x := 450.5, y := 450.25 } : float2 ℝ) = some 405450 := by
    rw [stamp_index_eq, if_pos (by simp only [in_canvas, hx, hy]; decide)]
    simp only [hx, hy]
    rfl
  ⟨((stamp_bounds ({ x := 900, y := 10 } : float2 ℝ) _ hlen).2.2.1 hout).2,
    ((stamp_bounds ({ x := 450.5, y := 450.25 } : float2 ℝ) _ hlen).2.1 405450 hidx).2.2⟩
/-- Reading a cell of the stamped canvas. -/
lemma stamp_getElem? {α : Type} [LinearOrderedField α] [FloorRing α] (p : float2 α)
    (canvas : List Nat) (i : Nat) :
    (stamp p canvas)[i]?
      = if stamp_index p = some i ∧ i < canvas.length then some 255 else canvas[i]? := by
  unfold stamp
  cases h : stamp_index p with
  | none => simp
  | some j =>
    simp only [List.getElem?_set, Option.some.injEq]
    by_cases hji : j = i
    · subst hji
      by_cases hl : j < canvas.length
      · simp [hl]
      · simp only [hl, if_false, and_false, if_true]
        exact (List.getElem?_eq_none (not_lt.mp hl)).symm
    · simp [hji]

/-- One frame keeps every marked cell marked. -/
lemma update_state_keeps_marker {α : Type} [LinearOrderedField α] [FloorRing α]
    (sinf cosf : α → α) (s : state_t α) (i : Nat) (h : s.canvas[i]? = some 255) :
    (update_state sinf cosf s).canvas[i]? = some 255 := by
  show (stamp (pos2 sinf cosf s) s.canvas)[i]? = some 255
  rw [stamp_getElem?]
  split
  · rfl
  · exact h

/-- C6: one call of `update_state` changes at most one canvas cell, a changed cell holds the
marker `255`, and a cell holding the marker keeps it; hence along the frame loop a cell that
holds the marker after frame `k` holds it after every frame `n ≥ k`, and is in particular
never the background value `0xFFFFFFFF` again.  The buffer length never changes. -/
theorem canvas_monotone {α : Type} [LinearOrderedField α] [FloorRing α]
    (sinf cosf : α → α) (s : state_t α) :
    (∃ j : Nat, ∀ i : Nat, i ≠ j → (update_state sinf cosf s).canvas[i]? = s.canvas[i]?)
    ∧ (∀ i : Nat, (update_state sinf cosf s).canvas[i]? ≠ s.canvas[i]? →
        (update_state sinf cosf s).canvas[i]? = some 255)
    ∧ (∀ i : Nat, s.canvas[i]? = some 255 → (update_state sinf cosf s).canvas[i]? = some 255)
    ∧ (∀ k n i : Nat, k ≤ n → (run sinf cosf k s).canvas[i]? = some 255 →
        (run sinf cosf n s).canvas[i]? = some 255
        ∧ (run sinf cosf n s).canvas[i]? ≠ some 4294967295)
    ∧ ∀ n, (run sinf cosf n s).canvas.length = s.canvas.length := by
  have hc : ∀ t : state_t α, ∀ i, (update_state sinf cosf t).canvas[i]?
      = if stamp_index (pos2 sinf cosf t) = some i ∧ i < t.canvas.length then some 255
        else t.canvas[i]? := fun t i => stamp_getElem? (pos2 sinf cosf t) t.canvas i
  refine ⟨?_, ?_, update_state_keeps_marker sinf cosf s, ?_, ?_⟩
  · cases hj : stamp_index (pos2 sinf cosf s) with
    | none =>
      refine ⟨0, fun i _ => ?_⟩
      rw [hc, hj]
      simp
    | some j =>
      refine ⟨j, fun i hij => ?_⟩
      rw [hc, hj, if_neg]
      rintro ⟨h, -⟩
      exact hij (Option.some.inj h).symm
  · intro i hne
    rw [hc] at hne ⊢
    split
    · rfl
    · rename_i h
      rw [if_neg h] at hne
      exact absurd rfl hne
  · intro k n i hkn hk
    have hmark : (run sinf cosf n s).canvas[i]? = some 255 := by
      induction n, hkn using Nat.le_induction with
      | base => exact hk
      | succ n _ ih => exact update_state_keeps_marker sinf cosf _ i ih
    refine ⟨hmark, ?_⟩
    rw [hmark]
    simp
  · intro n
    induction n with
    | zero => rfl
    | succ n ih =>
      show (stamp _ (run sinf cosf n s).canvas).length = _
      rw [← ih]
      unfold stamp
      split
      · exact List.length_set _ _ _
      · rfl
/-- Witness for `canvas_monotone`: from the state with both arms hanging straight down the
first frame marks cell `405450` (pixel `(450, 450)`), and the cell is still marked after the
second frame. -/
theorem canvas_monotone_witness :
    (run Real.sin Real.cos 1 (sample_state 0 0 0 0)).canvas[405450]? = some 255
      ∧ (run Real.sin Real.cos 2 (sample_state 0 0 0 0)).canvas[405450]? = some 255
      ∧ (run Real.sin Real.cos 2 (sample_state 0 0 0 0)).canvas[405450]? ≠ some 4294967295 :=
  have hp : pos2 Real.sin Real.cos (sample_state 0 0 0 0) = { x := 450, y := 450 } := by
    simp only [pos2, pos1, float2.add, float2.scale, sample_state, Real.sin_zero, Real.cos_zero,
      WINDOW_WIDTH]
    norm_num
  have hidx : stamp_index ({ x := 450, y := 450 } : float2 ℝ) = some 405450 := by
    rw [stamp_index_eq, if_pos (by simp [in_canvas])]
    simp
  have h1 : (run Real.sin Real.cos 1 (sample_state 0 0 0 0)).canvas[405450]? = some 255 := by
    show (stamp (pos2 Real.sin Real.cos (sample_state 0 0 0 0))
      (sample_state 0 0 0 0 : state_t ℝ).canvas)[405450]? = some 255
    rw [hp, stamp_getElem?, if_pos]
    refine ⟨hidx, ?_⟩
    show 405450 < (List.replicate _ _).length
    rw [List.length_replicate]
    decide
  ⟨h1, (canvas_monotone Real.sin Real.cos (sample_state 0 0 0 0)).2.2.2.1 1 2 405450
    (by decide) h1⟩

/-! ## `fill_circle` -/

/-- The loop of `fill_circle` terminates and emits the body for `dy, dy + 1, …, radius`. -/
lemma fill_circle_loop_eq {α : Type} [LinearOrderedField α] [FloorRing α] (sqrtf : α → α)
    (cx cy radius : Int) (n : Nat) :
    ∀ dy : Int, (radius + 1 - dy).toNat = n →
      fill_circle_loop sqrtf cx cy radius dy
        = (List.range n).flatMap (fun i => fill_circle_body sqrtf cx cy radius (dy + i)) := by
  induction n with
  | zero =>
    intro dy h
    rw [fill_circle_loop, if_neg (by omega)]
    rfl
  | succ n ih =>
    intro dy h
    rw [fill_circle_loop, if_pos (by omega), ih (dy + 1) (by omega), List.range_succ_eq_map,
      List.flatMap_cons, List.flatMap_map]
    congr 1
    · simp
    · congr 1
      funext i
      simp only [Nat.succ_eq_add_one, Nat.cast_add, Nat.cast_one]
      congr 1
      ring

/-- The half-width of the iteration `dy` is the integer square root of `2·r·dy − dy²`. -/
lemma floor_sqrt_eq (r dy : Int) (h1 : 1 ≤ dy) (h2 : dy ≤ r) :
    ⌊Real.sqrt (2 * (r : ℝ) * (dy : ℝ) - ((dy * dy : Int) : ℝ))⌋
      = (Nat.sqrt (2 * r * dy - dy * dy).toNat : Int) := by
  have hnn : 0 ≤ 2 * r * dy - dy * dy := by nlinarith
  have hc : (2 * (r : ℝ) * (dy : ℝ) - ((dy * dy : Int) : ℝ))
      = (((2 * r * dy - dy * dy).toNat : ℕ) : ℝ) := by
    have h3 : (((2 * r * dy - dy * dy).toNat : ℕ) : ℤ) = 2 * r * dy - dy * dy :=
      Int.toNat_of_nonneg hnn
    have h4 : ((((2 * r * dy - dy * dy).toNat : ℕ) : ℤ) : ℝ)
        = ((2 * r * dy - dy * dy : ℤ) : ℝ) := by rw [h3]
    rw [Int.cast_natCast] at h4
    rw [h4]
    push_cast
    ring
  rw [hc]
  exact Real.floor_real_sqrt_eq_nat_sqrt

/-- The two lines of one iteration, with integer end points. -/
lemma fill_circle_body_eq (cx cy r dy : Int) :
    fill_circle_body Real.sqrt cx cy r dy
      = [ { x1 := cx - ⌊Real.sqrt (2 * (r : ℝ) * (dy : ℝ) - (dy : ℝ) ^ 2)⌋, y1 := cy + dy - r,
            x2 := cx + ⌊Real.sqrt (2 * (r : ℝ) * (dy : ℝ) - (dy : ℝ) ^ 2)⌋, y2 := cy + dy - r },
          { x1 := cx - ⌊Real.sqrt (2 * (r : ℝ) * (dy : ℝ) - (dy : ℝ) ^ 2)⌋, y1 := cy - dy + r,
            x2 := cx + ⌊Real.sqrt (2 * (r : ℝ) * (dy : ℝ) - (dy : ℝ) ^ 2)⌋,
            y2 := cy - dy + r } ] := by
  have hsq : (2 * (r : ℝ) * (dy : ℝ) - ((dy * dy : Int) : ℝ))
      = 2 * (r : ℝ) * (dy : ℝ) - (dy : ℝ) ^ 2 := by
    push_cast
    ring
  simp only [fill_circle_body, hsq, ← Int.cast_sub, ← Int.cast_add, float_to_int_intCast]

/-- Membership in the output of `fill_circle`, with the half-width as an integer square
root. -/
lemma mem_fill_circle (cx cy r : Int) (l : DrawLine) :
    l ∈ fill_circle Real.sqrt cx cy r ↔
      ∃ dy : Int, 1 ≤ dy ∧ dy ≤ r ∧
        (l = { x1 := cx - Nat.sqrt (2 * r * dy - dy * dy).toNat, y1 := cy + dy - r,
               x2 := cx + Nat.sqrt (2 * r * dy - dy * dy).toNat, y2 := cy + dy - r }
          ∨ l = { x1 := cx - Nat.sqrt (2 * r * dy - dy * dy).toNat, y1 := cy - dy + r,
                  x2 := cx + Nat.sqrt (2 * r * dy - dy * dy).toNat, y2 := cy - dy + r }) := by
  have hbody : ∀ dy : Int, 1 ≤ dy → dy ≤ r → fill_circle_body Real.sqrt cx cy r dy
      = [ { x1 := cx - Nat.sqrt (2 * r * dy - dy * dy).toNat, y1 := cy + dy - r,
            x2 := cx + Nat.sqrt (2 * r * dy - dy * dy).toNat, y2 := cy + dy - r },
          { x1 := cx - Nat.sqrt (2 * r * dy - dy * dy).toNat, y1 := cy - dy + r,
            x2 := cx + Nat.sqrt (2 * r * dy - dy * dy).toNat, y2 := cy - dy + r } ] := by
    intro dy h1 h2
    simp only [fill_circle_body, floor_sqrt_eq r dy h1 h2, ← Int.cast_sub, ← Int.cast_add,
      float_to_int_intCast]
  rw [fill_circle, fill_circle_loop_eq Real.sqrt cx cy r (r + 1 - 1).toNat 1 rfl,
    List.mem_flatMap]
  constructor
  · rintro ⟨i, hi, hl⟩
    rw [List.mem_range] at hi
    have h1 : (1 : Int) ≤ 1 + i := by omega
    have h2 : (1 : Int) + i ≤ r := by omega
    rw [hbody _ h1 h2] at hl
    refine ⟨1 + i, h1, h2, ?_⟩
    simpa using hl
  · rintro ⟨dy, h1, h2, hl⟩
    refine ⟨(dy - 1).toNat, ?_, ?_⟩
    · rw [List.mem_range]
      omega
    · have hdy : (1 : Int) + ((dy - 1).toNat : Nat) = dy := by omega
      rw [hdy, hbody dy h1 h2]
      simpa using hl

/-- C7: for every centre and every integer radius `r`, in exact arithmetic, `fill_circle`
emits for `dy = 1, …, r` the span from `(cx − dx, cy + dy − r)` to `(cx + dx, cy + dy − r)`
followed by its mirror from `(cx − dx, cy − dy + r)` to `(cx + dx, cy − dy + r)`, with
`dx = ⌊√(2·r·dy − dy²)⌋`: `r` pairs when `r ≥ 1`, nothing when `r ≤ 0`.  Every span is
horizontal, has `0 ≤ dx ≤ r` and its row within `[cy − (r − 1), cy + (r − 1)]`.  For `r = 20`
there are `20` pairs. -/
theorem fill_circle_scanlines (cx cy r : Int) :
    fill_circle Real.sqrt cx cy r
      = (List.range r.toNat).flatMap (fun i =>
          [ { x1 := cx - ⌊Real.sqrt (2 * (r : ℝ) * ((i + 1 : Nat) : ℝ) - ((i + 1 : Nat) : ℝ) ^ 2)⌋,
              y1 := cy + (i + 1 : Nat) - r,
              x2 := cx + ⌊Real.sqrt (2 * (r : ℝ) * ((i + 1 : Nat) : ℝ) - ((i + 1 : Nat) : ℝ) ^ 2)⌋,
              y2 := cy + (i + 1 : Nat) - r },
            { x1 := cx - ⌊Real.sqrt (2 * (r : ℝ) * ((i + 1 : Nat) : ℝ) - ((i + 1 : Nat) : ℝ) ^ 2)⌋,
              y1 := cy - (i + 1 : Nat) + r,
              x2 := cx + ⌊Real.sqrt (2 * (r : ℝ) * ((i + 1 : Nat) : ℝ) - ((i + 1 : Nat) : ℝ) ^ 2)⌋,
              y2 := cy - (i + 1 : Nat) + r } ])
    ∧ (fill_circle Real.sqrt cx cy r).length = 2 * r.toNat
    ∧ (fill_circle Real.sqrt cx cy r = [] ↔ r ≤ 0)
    ∧ (∀ l ∈ fill_circle Real.sqrt cx cy r,
        l.y1 = l.y2 ∧ cx - l.x1 = l.x2 - cx ∧ 0 ≤ l.x2 - cx ∧ l.x2 - cx ≤ r
        ∧ cy - (r - 1) ≤ l.y1 ∧ l.y1 ≤ cy + (r - 1))
    ∧ (fill_circle Real.sqrt cx cy 20).length = 2 * 20 := by
  have hloop : ∀ r : Int, fill_circle Real.sqrt cx cy r
      = (List.range r.toNat).flatMap (fun i => fill_circle_body Real.sqrt cx cy r (1 + i)) := by
    intro r
    rw [fill_circle, fill_circle_loop_eq Real.sqrt cx cy r (r + 1 - 1).toNat 1 rfl]
    congr 2
    omega
  have hlen : ∀ r : Int, (fill_circle Real.sqrt cx cy r).length = 2 * r.toNat := by
    intro r
    rw [hloop]
    generalize r.toNat = n
    induction n with
    | zero => rfl
    | succ n ih =>
      rw [List.range_succ, List.flatMap_append, List.length_append, ih]
      simp [fill_circle_body]
      omega
  refine ⟨?_, hlen r, ?_, ?_, hlen 20⟩
  · rw [hloop]
    congr 1
    funext i
    rw [fill_circle_body_eq]
    have hi : ((1 + (i : Int) : Int) : ℝ) = ((i + 1 : Nat) : ℝ) := by
      push_cast
      ring
    have hi2 : (1 + (i : Int) : Int) = ((i + 1 : Nat) : Int) := by
      push_cast
      ring
    rw [hi, hi2]
  · constructor
    · intro h
      have h2 := hlen r
      rw [h] at h2
      simp only [List.length_nil] at h2
      omega
    · intro h
      have h2 := hlen r
      have h3 : r.toNat = 0 := by omega
      rw [h3] at h2
      exact List.length_eq_zero.mp h2
  · intro l hl
    rw [mem_fill_circle] at hl
    obtain ⟨dy, h1, h2, hl⟩ := hl
    have hnn : 0 ≤ 2 * r * dy - dy * dy := by nlinarith
    have hle : Nat.sqrt (2 * r * dy - dy * dy).toNat ≤ r.toNat := by
      have h3 : (2 * r * dy - dy * dy).toNat ≤ r.toNat * r.toNat := by
        have h4 : 2 * r * dy - dy * dy ≤ r * r := by nlinarith [sq_nonneg (r - dy)]
        have h5 : ((r.toNat * r.toNat : Nat) : Int) = r * r := by
          push_cast
          rw [Int.toNat_of_nonneg (by omega)]
        omega
      calc Nat.sqrt (2 * r * dy - dy * dy).toNat
          ≤ Nat.sqrt (r.toNat * r.toNat) := Nat.sqrt_le_sqrt h3
        _ = r.toNat := Nat.sqrt_eq r.toNat
    have hle2 : (Nat.sqrt (2 * r * dy - dy * dy).toNat : Int) ≤ r := by omega
    rcases hl with hl | hl <;> subst hl <;> refine ⟨rfl, ?_, ?_, ?_, ?_, ?_⟩ <;>
      dsimp only <;> omega

/-- Witness for `fill_circle_scanlines`: the disc of radius `20` centred at `(450, 250)` has
`20` pairs of spans; its widest span, drawn for `dy = 20`, runs from `(430, 250)` to
`(470, 250)`. -/
theorem fill_circle_scanlines_witness :
    ({ x1 := 430, y1 := 250, x2 := 470, y2 := 250 } : DrawLine)
        ∈ fill_circle Real.sqrt 450 250 20
      ∧ (fill_circle Real.sqrt 450 250 20).length = 2 * (20 : Int).toNat
      ∧ ((250 : Int) = 250 ∧ (450 : Int) - 430 = 470 - 450 ∧ (0 : Int) ≤ 470 - 450
        ∧ (470 : Int) - 450 ≤ 20 ∧ (250 : Int) - (20 - 1) ≤ 250 ∧ (250 : Int) ≤ 250 + (20 - 1)) :=
  have hmem : ({ x1 := 430, y1 := 250, x2 := 470, y2 := 250 } : DrawLine)
      ∈ fill_circle Real.sqrt 450 250 20 := by
    rw [mem_fill_circle]
    refine ⟨20, by decide, by decide, Or.inl ?_⟩
    have h : Nat.sqrt (2 * 20 * 20 - 20 * 20 : Int).toNat = 20 := Nat.sqrt_eq 20
    rw [h]
    rfl
  ⟨hmem, (fill_circle_scanlines 450 250 20).2.1,
    (fill_circle_scanlines 450 250 20).2.2.2.1 _ hmem⟩

/-- A pixel lies within the integer square root of `N` of the centre column exactly when the
square of its distance to that column is at most `N`. -/
lemma span_iff_sq_le (cx x : Int) (N : Nat) :
    (cx - Nat.sqrt N ≤ x ∧ x ≤ cx + Nat.sqrt N) ↔ (x - cx) ^ 2 ≤ (N : Int) := by
  have h1 : (x - cx).natAbs ≤ Nat.sqrt N ↔ (x - cx).natAbs * (x - cx).natAbs ≤ N :=
    Nat.le_sqrt
  have h2 : (((x - cx).natAbs * (x - cx).natAbs : Nat) : Int) = (x - cx) ^ 2 := by
    rw [Int.natAbs_mul_self, sq]
  constructor
  · intro h
    have h3 : (x - cx).natAbs ≤ Nat.sqrt N := by omega
    have h4 := h1.mp h3
    rw [← h2]
    exact_mod_cast h4
  · intro h
    rw [← h2] at h
    have h4 : (x - cx).natAbs * (x - cx).natAbs ≤ N := by exact_mod_cast h
    have h3 := h1.mpr h4
    omega

/-- The pixels covered by the spans of `fill_circle`. -/
lemma fill_circle_covers_iff (cx cy r x y : Int) :
    (∃ l ∈ fill_circle Real.sqrt cx cy r, l.span_covers x y)
      ↔ (|y - cy| ≤ r - 1 ∧ (x - cx) ^ 2 + (y - cy) ^ 2 ≤ r ^ 2) := by
  constructor
  · rintro ⟨l, hl, hcov⟩
    rw [mem_fill_circle] at hl
    obtain ⟨dy, h1, h2, hl⟩ := hl
    have hnn : 0 ≤ 2 * r * dy - dy * dy := by nlinarith
    have hN : (((2 * r * dy - dy * dy).toNat : Nat) : Int) = 2 * r * dy - dy * dy :=
      Int.toNat_of_nonneg hnn
    have hsp := span_iff_sq_le cx x (2 * r * dy - dy * dy).toNat
    rw [hN] at hsp
    rcases hl with hl | hl
    · subst hl
      obtain ⟨-, hy, hx1, hx2⟩ := hcov
      dsimp only at hy hx1 hx2
      have hx : (x - cx) ^ 2 ≤ 2 * r * dy - dy * dy := hsp.mp ⟨by omega, by omega⟩
      subst hy
      refine ⟨abs_le.mpr ⟨by omega, by omega⟩, ?_⟩
      have he : (cy + dy - r - cy) ^ 2 = r ^ 2 - 2 * r * dy + dy * dy := by ring
      rw [he]
      linarith
    · subst hl
      obtain ⟨-, hy, hx1, hx2⟩ := hcov
      dsimp only at hy hx1 hx2
      have hx : (x - cx) ^ 2 ≤ 2 * r * dy - dy * dy := hsp.mp ⟨by omega, by omega⟩
      subst hy
      refine ⟨abs_le.mpr ⟨by omega, by omega⟩, ?_⟩
      have he : (cy - dy + r - cy) ^ 2 = r ^ 2 - 2 * r * dy + dy * dy := by ring
      rw [he]
      linarith
  · rintro ⟨hy, hd⟩
    obtain ⟨hy1, hy2⟩ := abs_le.mp hy
    by_cases ht : y - cy ≤ 0
    · have hnn : 0 ≤ 2 * r * (r + (y - cy)) - (r + (y - cy)) * (r + (y - cy)) := by
        nlinarith [sq_nonneg (x - cx)]
      have hsp := span_iff_sq_le cx x
        (2 * r * (r + (y - cy)) - (r + (y - cy)) * (r + (y - cy))).toNat
      rw [Int.toNat_of_nonneg hnn] at hsp
      have hx := hsp.mpr (by nlinarith)
      refine ⟨_, (mem_fill_circle cx cy r _).mpr
        ⟨r + (y - cy), by omega, by omega, Or.inl rfl⟩, rfl, ?_, ?_, ?_⟩ <;>
        dsimp only <;> omega
    · have hnn : 0 ≤ 2 * r * (r - (y - cy)) - (r - (y - cy)) * (r - (y - cy)) := by
        nlinarith [sq_nonneg (x - cx)]
      have hsp := span_iff_sq_le cx x
        (2 * r * (r - (y - cy)) - (r - (y - cy)) * (r - (y - cy))).toNat
      rw [Int.toNat_of_nonneg hnn] at hsp
      have hx := hsp.mpr (by nlinarith)
      refine ⟨_, (mem_fill_circle cx cy r _).mpr
        ⟨r - (y - cy), by omega, by omega, Or.inr rfl⟩, rfl, ?_, ?_, ?_⟩ <;>
        dsimp only <;> omega

/-! ## `fill_circle` in binary32 arithmetic -/

/-- An integer rounds to itself. -/
lemma round_half_even_intCast (n : Int) : round_half_even (n : ℚ) = n := by
  unfold round_half_even
  rw [Int.floor_intCast, sub_self, if_pos (by norm_num)]

/-- A value `m·2^k` with `|m| ≤ 2^24` and `k ≥ -149` is a binary32 value: rounding keeps it. -/
lemma f32_round_scaled (m k : Int) (hm : |m| ≤ 2 ^ 24) (hk : -149 ≤ k) :
    f32_round ((m : ℚ) * 2 ^ k) = (m : ℚ) * 2 ^ k := by
  have h2 : (2 : ℚ) ≠ 0 := two_ne_zero
  have hint : ∃ n : Int, (m : ℚ) * 2 ^ k / 2 ^ (f32_exponent ((m : ℚ) * 2 ^ k) - 23) = (n : ℚ) := by
    generalize hE : f32_exponent ((m : ℚ) * 2 ^ k) = E
    by_cases hm0 : m = 0
    · refine ⟨0, ?_⟩
      rw [hm0]
      simp
    by_cases hcase : E ≤ k + 23
    · refine ⟨m * 2 ^ (k + 23 - E).toNat, ?_⟩
      have hj : ((k + 23 - E).toNat : Int) = k - (E - 23) := by omega
      rw [mul_div_assoc, ← zpow_sub₀ h2, ← hj, zpow_natCast]
      push_cast
      rfl
    · have hxpos : (0 : ℚ) < |(m : ℚ) * 2 ^ k| := by
        rw [abs_pos]
        exact mul_ne_zero (Int.cast_ne_zero.mpr hm0) (zpow_ne_zero k h2)
      have hlog : k + 24 ≤ Int.log 2 |(m : ℚ) * 2 ^ k| := by
        have h3 : E = max (Int.log 2 |(m : ℚ) * 2 ^ k|) (-126) := hE.symm
        omega
      have hle := (Int.zpow_le_iff_le_log (R := ℚ) (b := 2) one_lt_two hxpos).mpr hlog
      rw [Nat.cast_ofNat, abs_mul, abs_of_pos (zpow_pos (by norm_num : (0 : ℚ) < 2) k),
        zpow_add₀ h2, mul_comm ((2 : ℚ) ^ k)] at hle
      have hle2 : (2 : ℚ) ^ (24 : Int) ≤ |(m : ℚ)| :=
        le_of_mul_le_mul_right hle (zpow_pos (by norm_num : (0 : ℚ) < 2) k)
      have hle3 : (2 : Int) ^ 24 ≤ |m| := by
        have h5 : (((2 : Int) ^ 24 : Int) : ℚ) ≤ ((|m| : Int) : ℚ) := by
          rw [Int.cast_abs]
          norm_num at hle2 ⊢
          exact hle2
        exact_mod_cast h5
      have habs : |m| = 2 ^ 24 := le_antisymm hm hle3
      have hxabs : |(m : ℚ) * 2 ^ k| = ((2 : ℕ) : ℚ) ^ (k + 24) := by
        rw [abs_mul, abs_of_pos (zpow_pos (by norm_num : (0 : ℚ) < 2) k), ← Int.cast_abs, habs,
          Nat.cast_ofNat, zpow_add₀ h2, mul_comm]
        norm_num
      have hEeq : E = k + 24 := by
        rw [← hE, f32_exponent, hxabs, Int.log_zpow one_lt_two]
        omega
      refine ⟨m / 2, ?_⟩
      have hdiv : (m : ℚ) = 2 * ((m / 2 : Int) : ℚ) := by
        have h6 : m = 2 * (m / 2) := by
          rcases abs_eq (by norm_num : (0 : Int) ≤ 2 ^ 24) |>.mp habs with h | h <;> rw [h] <;>
            norm_num
        exact_mod_cast h6
      rw [hEeq, mul_div_assoc, ← zpow_sub₀ h2]
      have hk1 : k - (k + 24 - 23) = -1 := by ring
      rw [hk1, hdiv, zpow_neg_one]
      ring
  obtain ⟨n, hn⟩ := hint
  unfold f32_round
  rw [hn, round_half_even_intCast, ← hn]
  exact div_mul_cancel₀ _ (zpow_ne_zero _ h2)

/-- An integer of magnitude at most `2^24` converts to `float` exactly. -/
lemma f32_round_intCast (z : Int) (hz : |z| ≤ 2 ^ 24) : f32_round (z : ℚ) = z := by
  have h := f32_round_scaled z 0 hz (by norm_num)
  simpa using h

/-- An even integer of magnitude at most `2^25` is a binary32 value. -/
lemma f32_round_two_mul (w : Int) (hw : |w| ≤ 2 ^ 24) :
    f32_round (2 * (w : ℚ)) = 2 * (w : ℚ) := by
  have h := f32_round_scaled w 1 hw (by norm_num)
  rw [zpow_one, mul_comm] at h
  exact h

/-- The value of `sqrtf` at a natural number `N` whose square root has exponent
`23 - s`: with `m = ⌊√(N·4^s)⌋`, the significand is `m` when `N·4^s ≤ m² + m` and `m + 1`
otherwise. -/
lemma f32_sqrt_natCast (N s : Nat) (hs : Nat.log 2 N / 2 + s = 23) :
    f32_sqrt (N : ℚ)
      = ((if N * (2 ^ s * 2 ^ s) ≤ Nat.sqrt (N * (2 ^ s * 2 ^ s))
              * Nat.sqrt (N * (2 ^ s * 2 ^ s)) + Nat.sqrt (N * (2 ^ s * 2 ^ s))
          then Nat.sqrt (N * (2 ^ s * 2 ^ s))
          else Nat.sqrt (N * (2 ^ s * 2 ^ s)) + 1 : Nat) : ℚ) / 2 ^ s := by
  have hP : (2 : ℚ) ^ s ≠ 0 := pow_ne_zero s two_ne_zero
  have hu : (2 : ℚ) ^ (Int.log 2 (N : ℚ) / 2 - 23) = ((2 : ℚ) ^ s)⁻¹ := by
    have he : Int.log 2 (N : ℚ) / 2 - 23 = -(s : Int) := by
      rw [Int.log_natCast]
      have h1 : ((Nat.log 2 N : Nat) : Int) / 2 = ((Nat.log 2 N / 2 : Nat) : Int) := by
        norm_cast
      rw [h1]
      omega
    rw [he, zpow_neg, zpow_natCast]
  have hy : (N : ℚ) / (((2 : ℚ) ^ s)⁻¹ * ((2 : ℚ) ^ s)⁻¹)
      = ((N * (2 ^ s * 2 ^ s) : Nat) : ℚ) := by
    push_cast
    field_simp
  unfold f32_sqrt
  simp only [hu, hy, Nat.floor_natCast]
  generalize N * (2 ^ s * 2 ^ s) = M
  generalize hm : Nat.sqrt M = m
  by_cases h : M ≤ m * m + m
  · have hq : (M : ℚ) ≤ (m : ℚ) * m + m := by exact_mod_cast h
    have hlt : (M : ℚ) < ((m : ℚ) + 1 / 2) ^ 2 := by nlinarith
    rw [if_pos hlt, if_pos h, div_eq_mul_inv]
  · have h1 : m * m + m + 1 ≤ M := by omega
    have hq : (m : ℚ) * m + m + 1 ≤ (M : ℚ) := by exact_mod_cast h1
    have hlt : ((m : ℚ) + 1 / 2) ^ 2 < (M : ℚ) := by nlinarith
    rw [if_neg (not_lt.mpr hlt.le), if_pos hlt, if_neg h, div_eq_mul_inv]

/-- For an integer `N` from `1` to `2^24`, the floor of the binary32 square root is the
integer square root. -/
lemma floor_f32_sqrt (N : Nat) (h1 : 1 ≤ N) (h2 : N ≤ 2 ^ 24) :
    ⌊f32_sqrt (N : ℚ)⌋ = (Nat.sqrt N : Int) := by
  rcases Nat.lt_or_ge N (2 ^ 24) with hlt | hge
  · have hlog : Nat.log 2 N < 24 := Nat.log_lt_of_lt_pow (by omega) hlt
    obtain ⟨s, hs⟩ : ∃ s : Nat, Nat.log 2 N / 2 + s = 23 := ⟨23 - Nat.log 2 N / 2, by omega⟩
    have hs12 : 12 ≤ s := by omega
    rw [f32_sqrt_natCast N s hs]
    have hcast : (2 : ℚ) ^ s = (((2 : Nat) ^ s : Nat) : ℚ) := by push_cast; rfl
    rw [hcast]
    have hPge : 2 ^ 12 ≤ 2 ^ s := Nat.pow_le_pow_right (by norm_num) hs12
    generalize (2 : Nat) ^ s = P at hPge
    have hPpos : 0 < P := by omega
    have hk1 : Nat.sqrt N * Nat.sqrt N ≤ N := Nat.sqrt_le N
    have hk2 : N < (Nat.sqrt N + 1) * (Nat.sqrt N + 1) := Nat.lt_succ_sqrt N
    have hk3 : Nat.sqrt N < 2 ^ 12 := Nat.sqrt_lt'.mpr (by norm_num at hlt ⊢; exact hlt)
    generalize Nat.sqrt N = k at hk1 hk2 hk3
    have hm1 : Nat.sqrt (N * (P * P)) * Nat.sqrt (N * (P * P)) ≤ N * (P * P) := Nat.sqrt_le _
    have hlow : k * P ≤ Nat.sqrt (N * (P * P)) := by
      rw [Nat.le_sqrt]
      calc k * P * (k * P) = k * k * (P * P) := by ring
        _ ≤ N * (P * P) := Nat.mul_le_mul_right _ hk1
    have hup : Nat.sqrt (N * (P * P)) < (k + 1) * P := by
      rw [Nat.sqrt_lt]
      calc N * (P * P) < (k + 1) * (k + 1) * (P * P) :=
            Nat.mul_lt_mul_of_pos_right hk2 (Nat.mul_pos hPpos hPpos)
        _ = (k + 1) * P * ((k + 1) * P) := by ring
    generalize Nat.sqrt (N * (P * P)) = m at hm1 hlow hup
    have hPq : (0 : ℚ) < (P : ℚ) := by exact_mod_cast hPpos
    rw [Int.floor_eq_iff]
    split
    · constructor
      · rw [le_div_iff₀ hPq]
        exact_mod_cast hlow
      · rw [div_lt_iff₀ hPq]
        exact_mod_cast hup
    · rename_i hround
      have hr1 : m * m + m + 1 ≤ N * (P * P) := by omega
      have hne : m + 1 ≠ (k + 1) * P := by
        intro heq
        have e1 : (N + 1) * (P * P) ≤ (k + 1) * (k + 1) * (P * P) :=
          Nat.mul_le_mul_right _ hk2
        have e2 : (k + 1) * (k + 1) * (P * P) = (m + 1) * (m + 1) := by
          rw [heq]
          ring
        have e3 : (k + 1) * P ≤ P * P := Nat.mul_le_mul_right _ (by omega)
        nlinarith
      have hup2 : m + 1 < (k + 1) * P := by omega
      constructor
      · rw [le_div_iff₀ hPq]
        have : k * P ≤ m + 1 := by omega
        exact_mod_cast this
      · rw [div_lt_iff₀ hPq]
        exact_mod_cast hup2
  · have hN : N = 2 ^ 24 := le_antisymm h2 hge
    subst hN
    have hlog : Nat.log 2 (2 ^ 24) = 24 := Nat.log_pow (by norm_num) 24
    rw [f32_sqrt_natCast (2 ^ 24) 11 (by rw [hlog])]
    have hM : (2 : Nat) ^ 24 * (2 ^ 11 * 2 ^ 11) = 2 ^ 23 * 2 ^ 23 := by norm_num
    have hk : Nat.sqrt (2 ^ 24) = 2 ^ 12 := by
      have : (2 : Nat) ^ 24 = 2 ^ 12 * 2 ^ 12 := by norm_num
      rw [this, Nat.sqrt_eq]
    rw [hM, Nat.sqrt_eq, if_pos (Nat.le_add_right _ _), hk, Int.floor_eq_iff]
    norm_num

/-- For `1 ≤ dy ≤ r ≤ 4096` and `|cx| + r ≤ 2^24` no binary32 operation of the loop body
rounds, and the half-width is the integer square root of `2·r·dy − dy²`. -/
lemma fill_circle_body_f32_eq (cx cy r dy : Int) (h1 : 1 ≤ dy) (h2 : dy ≤ r) (h3 : r ≤ 4096)
    (hc : |cx| + r ≤ 2 ^ 24) :
    fill_circle_body_f32 cx cy r dy
      = [ { x1 := cx - Nat.sqrt (2 * r * dy - dy * dy).toNat, y1 := cy + dy - r,
            x2 := cx + Nat.sqrt (2 * r * dy - dy * dy).toNat, y2 := cy + dy - r },
          { x1 := cx - Nat.sqrt (2 * r * dy - dy * dy).toNat, y1 := cy - dy + r,
            x2 := cx + Nat.sqrt (2 * r * dy - dy * dy).toNat, y2 := cy - dy + r } ] := by
  have hcx := abs_le.mp (show |cx| ≤ 2 ^ 24 - r by omega)
  have hpos : 1 ≤ 2 * r * dy - dy * dy := by nlinarith
  have hle : 2 * r * dy - dy * dy ≤ 2 ^ 24 := by nlinarith [sq_nonneg (r - dy)]
  have hrdy : r * dy ≤ 2 ^ 24 := by nlinarith
  have hrdy0 : 0 ≤ r * dy := by nlinarith
  have hdd : dy * dy ≤ 2 ^ 24 := by nlinarith
  have hdd0 : 0 ≤ dy * dy := by nlinarith
  have hN : (((2 * r * dy - dy * dy).toNat : Nat) : Int) = 2 * r * dy - dy * dy :=
    Int.toNat_of_nonneg (by omega)
  have hdle : (Nat.sqrt (2 * r * dy - dy * dy).toNat : Int) ≤ r := by
    have h4 : (2 * r * dy - dy * dy).toNat ≤ r.toNat * r.toNat := by
      have h5 : 2 * r * dy - dy * dy ≤ r * r := by nlinarith [sq_nonneg (r - dy)]
      have h6 : ((r.toNat * r.toNat : Nat) : Int) = r * r := by
        push_cast
        rw [Int.toNat_of_nonneg (by omega)]
      omega
    have h7 : Nat.sqrt (2 * r * dy - dy * dy).toNat ≤ r.toNat :=
      calc Nat.sqrt (2 * r * dy - dy * dy).toNat
          ≤ Nat.sqrt (r.toNat * r.toNat) := Nat.sqrt_le_sqrt h4
        _ = r.toNat := Nat.sqrt_eq r.toNat
    omega
  have e1 : f32_round (r : ℚ) = r := f32_round_intCast r (abs_le.mpr ⟨by omega, by omega⟩)
  have e2 : f32_round (2 * (r : ℚ)) = 2 * (r : ℚ) :=
    f32_round_two_mul r (abs_le.mpr ⟨by omega, by omega⟩)
  have e3 : f32_round (dy : ℚ) = dy := f32_round_intCast dy (abs_le.mpr ⟨by omega, by omega⟩)
  have e4 : f32_round (2 * (r : ℚ) * (dy : ℚ)) = 2 * (r : ℚ) * (dy : ℚ) := by
    have h := f32_round_two_mul (r * dy) (abs_le.mpr ⟨by omega, by omega⟩)
    have hcast : 2 * ((r * dy : Int) : ℚ) = 2 * (r : ℚ) * (dy : ℚ) := by
      push_cast
      ring
    rw [hcast] at h
    exact h
  have e5 : f32_round ((dy * dy : Int) : ℚ) = ((dy * dy : Int) : ℚ) :=
    f32_round_intCast (dy * dy) (abs_le.mpr ⟨by omega, by omega⟩)
  have e6 : f32_round (2 * (r : ℚ) * (dy : ℚ) - ((dy * dy : Int) : ℚ))
      = (((2 * r * dy - dy * dy).toNat : Nat) : ℚ) := by
    have h := f32_round_intCast (2 * r * dy - dy * dy) (abs_le.mpr ⟨by omega, by omega⟩)
    have hcast : ((2 * r * dy - dy * dy : Int) : ℚ)
        = 2 * (r : ℚ) * (dy : ℚ) - ((dy * dy : Int) : ℚ) := by
      push_cast
      ring
    have hnat : (((2 * r * dy - dy * dy).toNat : Nat) : ℚ)
        = ((2 * r * dy - dy * dy : Int) : ℚ) := by
      rw [← hN, Int.cast_natCast, hN]
    rw [hnat, ← hcast]
    exact h
  have e7 : ⌊f32_sqrt (((2 * r * dy - dy * dy).toNat : Nat) : ℚ)⌋
      = (Nat.sqrt (2 * r * dy - dy * dy).toNat : Int) :=
    floor_f32_sqrt _ (by omega) (by omega)
  have e8 : f32_round (cx : ℚ) = cx := f32_round_intCast cx (abs_le.mpr ⟨by omega, by omega⟩)
  have e9 : f32_round ((cx : ℚ) - ((Nat.sqrt (2 * r * dy - dy * dy).toNat : Int) : ℚ))
      = ((cx - (Nat.sqrt (2 * r * dy - dy * dy).toNat : Int) : Int) : ℚ) := by
    rw [← Int.cast_sub]
    exact f32_round_intCast _ (abs_le.mpr ⟨by omega, by omega⟩)
  have e10 : f32_round ((cx : ℚ) + ((Nat.sqrt (2 * r * dy - dy * dy).toNat : Int) : ℚ))
      = ((cx + (Nat.sqrt (2 * r * dy - dy * dy).toNat : Int) : Int) : ℚ) := by
    rw [← Int.cast_add]
    exact f32_round_intCast _ (abs_le.mpr ⟨by omega, by omega⟩)
  simp only [fill_circle_body_f32, int_to_f32, f32_mul, f32_sub, f32_add, f32_floor, e1, e2, e3,
    e4, e5, e6, e7, e8, e9, e10, float_to_int_intCast]

/-- The binary32 loop terminates and emits the body for `dy, dy + 1, …, radius`. -/
lemma fill_circle_loop_f32_eq (cx cy radius : Int) (n : Nat) :
    ∀ dy : Int, (radius + 1 - dy).toNat = n →
      fill_circle_loop_f32 cx cy radius dy
        = (List.range n).flatMap (fun i => fill_circle_body_f32 cx cy radius (dy + i)) := by
  induction n with
  | zero =>
    intro dy h
    rw [fill_circle_loop_f32, if_neg (by omega)]
    rfl
  | succ n ih =>
    intro dy h
    have h0 : dy + ((0 : Nat) : Int) = dy := by simp
    have hf : (fun i : Nat => fill_circle_body_f32 cx cy radius (dy + 1 + i))
        = (fun i : Nat => fill_circle_body_f32 cx cy radius (dy + i)) ∘ Nat.succ := by
      funext i
      have hi : dy + 1 + (i : Int) = dy + ((Nat.succ i : Nat) : Int) := by
        simp only [Nat.succ_eq_add_one, Nat.cast_add, Nat.cast_one]
        ring
      simp only [Function.comp_apply, hi]
    rw [fill_circle_loop_f32, if_pos (by omega), ih (dy + 1) (by omega), List.range_succ_eq_map,
      List.flatMap_cons, List.flatMap_map, h0, hf]
    rfl

/-- The lines drawn by the binary32 `fill_circle` are those of the iterations
`dy = 1, …, radius`. -/
lemma mem_fill_circle_f32 (cx cy r : Int) (l : DrawLine) :
    l ∈ fill_circle_f32 cx cy r
      ↔ ∃ dy : Int, 1 ≤ dy ∧ dy ≤ r ∧ l ∈ fill_circle_body_f32 cx cy r dy := by
  rw [fill_circle_f32, fill_circle_loop_f32_eq cx cy r (r + 1 - 1).toNat 1 rfl,
    List.mem_flatMap]
  constructor
  · rintro ⟨i, hi, hl⟩
    rw [List.mem_range] at hi
    exact ⟨1 + i, by omega, by omega, hl⟩
  · rintro ⟨dy, h1, h2, hl⟩
    refine ⟨(dy - 1).toNat, ?_, ?_⟩
    · rw [List.mem_range]
      omega
    · have hdy : (1 : Int) + ((dy - 1).toNat : Nat) = dy := by omega
      rw [hdy]
      exact hl

/-- For `r ≤ 4096` and `|cx| + r ≤ 2^24` the binary32 `fill_circle` draws exactly the lines
of the exact reading. -/
lemma fill_circle_f32_eq_exact (cx cy r : Int) (h3 : r ≤ 4096) (hc : |cx| + r ≤ 2 ^ 24) :
    fill_circle_f32 cx cy r = fill_circle Real.sqrt cx cy r := by
  rw [fill_circle_f32, fill_circle_loop_f32_eq cx cy r (r + 1 - 1).toNat 1 rfl, fill_circle,
    fill_circle_loop_eq Real.sqrt cx cy r (r + 1 - 1).toNat 1 rfl, List.flatMap_def,
    List.flatMap_def]
  congr 1
  apply List.map_congr_left
  intro i hi
  rw [List.mem_range] at hi
  have h1 : (1 : Int) ≤ 1 + i := by omega
  have h2 : (1 : Int) + i ≤ r := by omega
  rw [fill_circle_body_f32_eq cx cy r (1 + i) h1 h2 h3 hc]
  simp only [fill_circle_body, floor_sqrt_eq r (1 + i) h1 h2, ← Int.cast_sub, ← Int.cast_add,
    float_to_int_intCast]

/-- At radius `4097` the iteration `dy = 4096` has the argument `16785408 = 4097² − 1`, whose
binary32 square root is `4097`: the binary32 values next to `√16785408 = 4096.99987…` are
`4097 − 2⁻¹¹` and `4097`, and the second is nearer. -/
lemma f32_sqrt_16785408 : f32_sqrt ((16785408 : Nat) : ℚ) = 4097 := by
  have hlog : Nat.log 2 16785408 = 24 :=
    Nat.log_eq_of_pow_le_of_lt_pow (by norm_num) (by norm_num)
  rw [f32_sqrt_natCast 16785408 11 (by rw [hlog])]
  have hM : 16785408 * (2 ^ 11 * 2 ^ 11) = 70403103916032 := by norm_num
  have hm : Nat.sqrt 70403103916032 = 8390655 := by
    symm
    rw [Nat.eq_sqrt]
    constructor <;> norm_num
  rw [hM, hm, if_neg (by norm_num)]
  norm_num

/-- The lines of the iteration `dy = 4096` at radius `4097`, centre `(0, 0)`. -/
lemma fill_circle_body_f32_4097 :
    fill_circle_body_f32 0 0 4097 4096
      = [ { x1 := -4097, y1 := -1, x2 := 4097, y2 := -1 },
          { x1 := -4097, y1 := 1, x2 := 4097, y2 := 1 } ] := by
  have e1 : f32_round ((4097 : Int) : ℚ) = ((4097 : Int) : ℚ) :=
    f32_round_intCast 4097 (by norm_num)
  have e2 : f32_round (2 * ((4097 : Int) : ℚ)) = 2 * ((4097 : Int) : ℚ) :=
    f32_round_two_mul 4097 (by norm_num)
  have e3 : f32_round ((4096 : Int) : ℚ) = ((4096 : Int) : ℚ) :=
    f32_round_intCast 4096 (by norm_num)
  have e4 : f32_round (2 * ((4097 : Int) : ℚ) * ((4096 : Int) : ℚ))
      = 2 * ((4097 : Int) : ℚ) * ((4096 : Int) : ℚ) := by
    have h := f32_round_scaled 4097 13 (by norm_num) (by norm_num)
    have hcast : ((4097 : Int) : ℚ) * 2 ^ (13 : Int)
        = 2 * ((4097 : Int) : ℚ) * ((4096 : Int) : ℚ) := by norm_num
    rw [hcast] at h
    exact h
  have e5 : f32_round ((4096 * 4096 : Int) : ℚ) = ((4096 * 4096 : Int) : ℚ) :=
    f32_round_intCast (4096 * 4096) (by norm_num)
  have e6 : f32_round (2 * ((4097 : Int) : ℚ) * ((4096 : Int) : ℚ) - ((4096 * 4096 : Int) : ℚ))
      = ((16785408 : Nat) : ℚ) := by
    have h := f32_round_scaled 2049 13 (by norm_num) (by norm_num)
    have hcast : ((2049 : Int) : ℚ) * 2 ^ (13 : Int)
        = 2 * ((4097 : Int) : ℚ) * ((4096 : Int) : ℚ) - ((4096 * 4096 : Int) : ℚ) := by
      norm_num
    have hval : ((2049 : Int) : ℚ) * 2 ^ (13 : Int) = ((16785408 : Nat) : ℚ) := by norm_num
    rw [← hcast, h, hval]
  have e7 : ⌊(4097 : ℚ)⌋ = (4097 : Int) := by
    rw [Int.floor_eq_iff]
    norm_num
  have e8 : f32_round ((0 : Int) : ℚ) = ((0 : Int) : ℚ) := f32_round_intCast 0 (by norm_num)
  have e9 : f32_round (((0 : Int) : ℚ) - ((4097 : Int) : ℚ)) = ((-4097 : Int) : ℚ) := by
    have h := f32_round_intCast (-4097) (by norm_num)
    have hcast : ((-4097 : Int) : ℚ) = ((0 : Int) : ℚ) - ((4097 : Int) : ℚ) := by norm_num
    rw [← hcast]
    exact h
  have e10 : f32_round (((0 : Int) : ℚ) + ((4097 : Int) : ℚ)) = ((4097 : Int) : ℚ) := by
    have hcast : ((0 : Int) : ℚ) + ((4097 : Int) : ℚ) = ((4097 : Int) : ℚ) := by norm_num
    rw [hcast]
    exact e1
  simp only [fill_circle_body_f32, int_to_f32, f32_mul, f32_sub, f32_add, f32_floor, e1, e2, e3,
    e4, e5, e6, f32_sqrt_16785408, e7, e8, e9, e10, float_to_int_intCast]
  rfl

/-- The integer `2^24 + 1` is not a binary32 value: it lies midway between `2^24` and
`2^24 + 2` and rounds to the even significand, `2^24`. -/
lemma f32_round_16777217 : f32_round ((16777217 : Int) : ℚ) = ((16777216 : Int) : ℚ) := by
  have hlog : Int.log 2 |(((16777217 : Int) : ℚ))| = 24 := by
    have h1 : |(((16777217 : Int) : ℚ))| = ((16777217 : Nat) : ℚ) := by norm_num
    have h2 : Nat.log 2 16777217 = 24 :=
      Nat.log_eq_of_pow_le_of_lt_pow (by norm_num) (by norm_num)
    rw [h1, Int.log_natCast, h2]
    rfl
  have hfl : ⌊(((16777217 : Int) : ℚ)) / 2 ^ ((1 : Int))⌋ = 8388608 := by
    rw [Int.floor_eq_iff]
    norm_num
  have hexp : f32_exponent (((16777217 : Int) : ℚ)) - 23 = 1 := by
    rw [f32_exponent, hlog]
    norm_num
  unfold f32_round
  rw [hexp]
  have hr : round_half_even ((((16777217 : Int) : ℚ)) / 2 ^ ((1 : Int))) = 8388608 := by
    unfold round_half_even
    rw [hfl, if_neg (by norm_num), if_neg (by norm_num), if_pos (by norm_num)]
  rw [hr]
  norm_num

/-- The lines of the only iteration at radius `1`, centre `(2^24 + 1, 0)`. -/
lemma fill_circle_body_f32_far :
    fill_circle_body_f32 16777217 0 1 1
      = [ { x1 := 16777215, y1 := 0, x2 := 16777216, y2 := 0 },
          { x1 := 16777215, y1 := 0, x2 := 16777216, y2 := 0 } ] := by
  have e1 : f32_round ((1 : Int) : ℚ) = ((1 : Int) : ℚ) := f32_round_intCast 1 (by norm_num)
  have e2 : f32_round (2 * ((1 : Int) : ℚ)) = 2 * ((1 : Int) : ℚ) :=
    f32_round_two_mul 1 (by norm_num)
  have e4 : f32_round (2 * ((1 : Int) : ℚ) * ((1 : Int) : ℚ))
      = 2 * ((1 : Int) : ℚ) * ((1 : Int) : ℚ) := by
    rw [mul_assoc, ← Int.cast_mul]
    exact f32_round_two_mul (1 * 1) (by norm_num)
  have e5 : f32_round ((1 * 1 : Int) : ℚ) = ((1 * 1 : Int) : ℚ) :=
    f32_round_intCast (1 * 1) (by norm_num)
  have e6 : f32_round (2 * ((1 : Int) : ℚ) * ((1 : Int) : ℚ) - ((1 * 1 : Int) : ℚ))
      = ((1 : Nat) : ℚ) := by
    have h := f32_round_intCast 1 (by norm_num)
    have hcast : 2 * ((1 : Int) : ℚ) * ((1 : Int) : ℚ) - ((1 * 1 : Int) : ℚ)
        = ((1 : Int) : ℚ) := by norm_num
    rw [hcast, h]
    norm_num
  have e7 : ⌊f32_sqrt ((1 : Nat) : ℚ)⌋ = (1 : Int) := by
    rw [floor_f32_sqrt 1 (by norm_num) (by norm_num)]
    have h : Nat.sqrt 1 = 1 := Nat.sqrt_eq 1
    rw [h]
    rfl
  have e9 : f32_round (((16777216 : Int) : ℚ) - ((1 : Int) : ℚ)) = ((16777215 : Int) : ℚ) := by
    have h := f32_round_intCast 16777215 (by norm_num)
    have hcast : ((16777215 : Int) : ℚ) = ((16777216 : Int) : ℚ) - ((1 : Int) : ℚ) := by
      norm_num
    rw [← hcast]
    exact h
  have e10 : f32_round (((16777216 : Int) : ℚ) + ((1 : Int) : ℚ)) = ((16777216 : Int) : ℚ) := by
    have hcast : ((16777216 : Int) : ℚ) + ((1 : Int) : ℚ) = ((16777217 : Int) : ℚ) := by
      norm_num
    rw [hcast]
    exact f32_round_16777217
  simp only [fill_circle_body_f32, int_to_f32, f32_mul, f32_sub, f32_add, f32_floor, e1, e2,
    e4, e5, e6, e7, f32_round_16777217, e9, e10, float_to_int_intCast]
  rfl

/-- C9 (as stated, refuted): in binary32 arithmetic `fill_circle(0, 0, 4097)` draws, in the
iteration `dy = 4096`, the span from `(-4097, -1)` to `(4097, -1)`, so it covers the pixel
`(4097, -1)`, which is outside the closed disc of radius `4097`; and
`fill_circle(2^24 + 1, 0, 1)` covers the pixel `(2^24 − 1, 0)`, at distance `2` from its
centre.  Hence the covered pixels are not, for every centre and every radius `r ≥ 1`, the
points with `|y − cy| ≤ r − 1` and `(x − cx)² + (y − cy)² ≤ r²`. -/
theorem fill_circle_f32_overshoots :
    ((∃ l ∈ fill_circle_f32 0 0 4097, l.span_covers 4097 (-1))
      ∧ ¬ (|(-1 : Int) - 0| ≤ 4097 - 1
          ∧ ((4097 : Int) - 0) ^ 2 + ((-1 : Int) - 0) ^ 2 ≤ 4097 ^ 2))
    ∧ ((∃ l ∈ fill_circle_f32 16777217 0 1, l.span_covers 16777215 0)
      ∧ ¬ (|(0 : Int) - 0| ≤ 1 - 1
          ∧ ((16777215 : Int) - 16777217) ^ 2 + ((0 : Int) - 0) ^ 2 ≤ 1 ^ 2))
    ∧ ¬ (∀ cx cy r : Int, 1 ≤ r → ∀ x y : Int,
          (∃ l ∈ fill_circle_f32 cx cy r, l.span_covers x y)
            ↔ (|y - cy| ≤ r - 1 ∧ (x - cx) ^ 2 + (y - cy) ^ 2 ≤ r ^ 2)) := by
  have hcov : ∃ l ∈ fill_circle_f32 0 0 4097, l.span_covers 4097 (-1) := by
    refine ⟨{ x1 := -4097, y1 := -1, x2 := 4097, y2 := -1 }, ?_, by decide⟩
    rw [mem_fill_circle_f32]
    refine ⟨4096, by decide, by decide, ?_⟩
    rw [fill_circle_body_f32_4097]
    exact List.mem_cons_self _ _
  have hout : ¬ (|(-1 : Int) - 0| ≤ 4097 - 1
      ∧ ((4097 : Int) - 0) ^ 2 + ((-1 : Int) - 0) ^ 2 ≤ 4097 ^ 2) := by
    rintro ⟨-, h⟩
    norm_num at h
  have hcov2 : ∃ l ∈ fill_circle_f32 16777217 0 1, l.span_covers 16777215 0 := by
    refine ⟨{ x1 := 16777215, y1 := 0, x2 := 16777216, y2 := 0 }, ?_, by decide⟩
    rw [mem_fill_circle_f32]
    refine ⟨1, by decide, by decide, ?_⟩
    rw [fill_circle_body_f32_far]
    exact List.mem_cons_self _ _
  have hout2 : ¬ (|(0 : Int) - 0| ≤ 1 - 1
      ∧ ((16777215 : Int) - 16777217) ^ 2 + ((0 : Int) - 0) ^ 2 ≤ 1 ^ 2) := by
    rintro ⟨-, h⟩
    norm_num at h
  exact ⟨⟨hcov, hout⟩, ⟨hcov2, hout2⟩,
    fun h => hout ((h 0 0 4097 (by decide) 4097 (-1)).mp hcov)⟩

/-- C9 (amended): for every centre and every integer radius with `1 ≤ r ≤ 4096` and
`|cx| + r ≤ 2^24`, `fill_circle` in binary32 arithmetic draws the same lines as in exact
arithmetic, and the pixels covered by its spans are exactly the integer points `(x, y)` with
`|y − cy| ≤ r − 1` and `(x − cx)² + (y − cy)² ≤ r²`; every row from `cy − (r − 1)` to
`cy + (r − 1)` is covered, the covered part of each such row is one contiguous span around
`cx`, and no covered pixel lies outside the closed disc of radius `r`. -/
theorem fill_circle_f32_disc (cx cy r : Int) (hr : 1 ≤ r) (hr2 : r ≤ 4096)
    (hc : |cx| + r ≤ 2 ^ 24) :
    fill_circle_f32 cx cy r = fill_circle Real.sqrt cx cy r
    ∧ (∀ x y : Int, (∃ l ∈ fill_circle_f32 cx cy r, l.span_covers x y)
        ↔ (|y - cy| ≤ r - 1 ∧ (x - cx) ^ 2 + (y - cy) ^ 2 ≤ r ^ 2))
    ∧ (∀ y : Int, cy - (r - 1) ≤ y → y ≤ cy + (r - 1) →
        ∃ l ∈ fill_circle_f32 cx cy r, l.span_covers cx y)
    ∧ (∀ y : Int, cy - (r - 1) ≤ y → y ≤ cy + (r - 1) →
        ∃ d : Int, 0 ≤ d ∧ d ≤ r ∧ ∀ x : Int,
          (∃ l ∈ fill_circle_f32 cx cy r, l.span_covers x y)
            ↔ (cx - d ≤ x ∧ x ≤ cx + d))
    ∧ (∀ x y : Int, (∃ l ∈ fill_circle_f32 cx cy r, l.span_covers x y) →
        (x - cx) ^ 2 + (y - cy) ^ 2 ≤ r ^ 2) := by
  have heq := fill_circle_f32_eq_exact cx cy r hr2 hc
  have hrow : ∀ y : Int, cy - (r - 1) ≤ y → y ≤ cy + (r - 1) →
      |y - cy| ≤ r - 1 ∧ (y - cy) ^ 2 ≤ r ^ 2 := by
    intro y h1 h2
    have ha : |y - cy| ≤ r - 1 := abs_le.mpr ⟨by omega, by omega⟩
    refine ⟨ha, ?_⟩
    have hb : |y - cy| ≤ |r| := by
      rw [abs_of_nonneg (show (0 : Int) ≤ r by omega)]
      omega
    exact sq_le_sq.mpr hb
  rw [heq]
  refine ⟨rfl, fun x y => fill_circle_covers_iff cx cy r x y, ?_, ?_, ?_⟩
  · intro y h1 h2
    obtain ⟨ha, hb⟩ := hrow y h1 h2
    rw [fill_circle_covers_iff]
    refine ⟨ha, ?_⟩
    simpa using hb
  · intro y h1 h2
    obtain ⟨ha, hb⟩ := hrow y h1 h2
    have hnn : 0 ≤ r ^ 2 - (y - cy) ^ 2 := by omega
    have hle : Nat.sqrt (r ^ 2 - (y - cy) ^ 2).toNat ≤ r.toNat := by
      have h3 : (r ^ 2 - (y - cy) ^ 2).toNat ≤ r.toNat * r.toNat := by
        have h5 : ((r.toNat * r.toNat : Nat) : Int) = r ^ 2 := by
          push_cast
          rw [Int.toNat_of_nonneg (by omega)]
          ring
        have h6 : 0 ≤ (y - cy) ^ 2 := sq_nonneg _
        omega
      calc Nat.sqrt (r ^ 2 - (y - cy) ^ 2).toNat
          ≤ Nat.sqrt (r.toNat * r.toNat) := Nat.sqrt_le_sqrt h3
        _ = r.toNat := Nat.sqrt_eq r.toNat
    refine ⟨Nat.sqrt (r ^ 2 - (y - cy) ^ 2).toNat, by omega, by omega, fun x => ?_⟩
    rw [fill_circle_covers_iff, span_iff_sq_le, Int.toNat_of_nonneg hnn]
    constructor
    · rintro ⟨-, h⟩
      linarith
    · intro h
      exact ⟨ha, by linarith⟩
  · intro x y h
    exact ((fill_circle_covers_iff cx cy r x y).mp h).2

/-- Witness for `fill_circle_f32_disc`: for the disc of radius `20`, the radius `main` uses,
centred at `(450, 250)`, the pixel `(438, 266)`, at distance exactly `20`, is covered, the
pixel `(437, 266)` is not, and the top row `231` is covered. -/
theorem fill_circle_f32_disc_witness :
    fill_circle_f32 450 250 20 = fill_circle Real.sqrt 450 250 20
      ∧ (∃ l ∈ fill_circle_f32 450 250 20, l.span_covers 438 266)
      ∧ ¬ (∃ l ∈ fill_circle_f32 450 250 20, l.span_covers 437 266)
      ∧ (∃ l ∈ fill_circle_f32 450 250 20, l.span_covers 450 231) :=
  have hc : |(450 : Int)| + 20 ≤ 2 ^ 24 := by norm_num
  ⟨(fill_circle_f32_disc 450 250 20 (by decide) (by decide) hc).1,
    ((fill_circle_f32_disc 450 250 20 (by decide) (by decide) hc).2.1 438 266).mpr (by decide),
    fun h => absurd
      (((fill_circle_f32_disc 450 250 20 (by decide) (by decide) hc).2.1 437 266).mp h)
      (by decide),
    (fill_circle_f32_disc 450 250 20 (by decide) (by decide) hc).2.2.1 231 (by decide)
      (by decide)⟩

end DoublePendulum
